import Mathlib

/-!
Verification of the telemetry ingestion pipeline.

This file is a shallow embedding of the pipeline's core:
`src/validate.py` (`parse_timedelta`, `cast_to_type`, `apply_schema`),
`src/rules.py` (`apply_rules`), `src/clean.py` (`normalize_columns`,
`trim_strings`), the data-preparation steps of `src/main.py`
(`run_telemetry_ingestion`), and `src/load.py` (`get_db_connection`,
`load_dataframe`), together with theorems settling the specification
claims about them.

Modelling conventions:
* a pandas cell value is `Value` below: `null` stands for every value
  `pd.isna` accepts (`None`, `NaN`, `NaT`); integers are unbounded `ℤ`
  as Python ints are; floats are exact rationals together with the
  explicit binary64 rounding `roundFloat` applied at every point the
  Python code converts to `float`; timestamps are their calendar
  fields; timedeltas are their total nanoseconds;
* fallible Python code (a `raise` of `ValueError`) is `Option`/`Except`;
* text is `List Char`, restricted to the ASCII fragment the pipeline
  manipulates.
-/

namespace Telemetry

/-! ## Decimal text

Python renders and reads integers in decimal: `str(int)` and the
decimal part of `float(str)`.  The rendering is built on `Nat.digits`
(least significant first), reversed and mapped to characters.
-/

/-- The character of a decimal digit `0`–`9`. -/
def digitOf (d : ℕ) : Char :=
  Char.ofNat (48 + d)

/-- The numeric value of a decimal digit character. -/
def valOf (c : Char) : ℕ :=
  c.toNat - 48

/-- Decimal rendering of a natural number, most significant digit
first; Python `str` of a non-negative integer. -/
def decChars (n : ℕ) : List Char :=
  if n = 0 then [digitOf 0] else ((Nat.digits 10 n).map digitOf).reverse

/-- The value a decimal reader assigns to a run of digit characters. -/
def decValue (cs : List Char) : ℕ :=
  Nat.ofDigits 10 ((cs.map valOf).reverse)

theorem valOf_digitOf {d : ℕ} (hd : d < 10) : valOf (digitOf d) = d := by
  interval_cases d <;> decide

theorem isDigit_digitOf {d : ℕ} (hd : d < 10) : (digitOf d).isDigit = true := by
  interval_cases d <;> decide

theorem decChars_ne_nil (n : ℕ) : decChars n ≠ [] := by
  unfold decChars
  split
  · simp
  · next h =>
    simp only [ne_eq, List.reverse_eq_nil_iff, List.map_eq_nil_iff]
    exact Nat.digits_ne_nil_iff_ne_zero.mpr h

theorem decChars_all_digit (n : ℕ) : ∀ c ∈ decChars n, c.isDigit = true := by
  intro c hc
  unfold decChars at hc
  split at hc
  · simp only [List.mem_singleton] at hc
    subst hc; decide
  · simp only [List.mem_reverse, List.mem_map] at hc
    obtain ⟨d, hd, rfl⟩ := hc
    exact isDigit_digitOf (Nat.digits_lt_base (by norm_num) hd)

theorem decValue_decChars (n : ℕ) : decValue (decChars n) = n := by
  unfold decValue decChars
  split
  · next h => subst h; decide
  · next h =>
    have hmap : (((Nat.digits 10 n).map digitOf).reverse.map valOf).reverse
        = Nat.digits 10 n := by
      rw [← List.map_reverse, List.reverse_reverse, List.map_map]
      have : ∀ d ∈ Nat.digits 10 n, (valOf ∘ digitOf) d = id d := by
        intro d hd
        exact valOf_digitOf (Nat.digits_lt_base (by norm_num) hd)
      rw [List.map_congr_left this, List.map_id]
    rw [hmap, Nat.ofDigits_digits]

theorem decChars_length_le {n k : ℕ} (hk : 0 < k) (hn : n < 10 ^ k) :
    (decChars n).length ≤ k := by
  unfold decChars
  split
  · simpa using hk
  · next h =>
    rw [List.length_reverse, List.length_map,
      Nat.digits_len 10 n (by norm_num) h]
    have := Nat.log_lt_of_lt_pow h hn
    omega

/-- Zero-pad the decimal rendering of `n` on the left to width `w`;
the fixed-width field formatting used by pandas timestamp/timedelta
text. -/
def padDec (w n : ℕ) : List Char :=
  List.replicate (w - (decChars n).length) (digitOf 0) ++ decChars n

theorem ofDigits_replicate_zero (k : ℕ) :
    Nat.ofDigits 10 (List.replicate k 0) = 0 := by
  induction k with
  | zero => rfl
  | succ k ih => simp [List.replicate_succ, Nat.ofDigits_cons, ih]

theorem decValue_padDec (w n : ℕ) : decValue (padDec w n) = n := by
  unfold decValue padDec
  rw [List.map_append, List.reverse_append, Nat.ofDigits_append]
  have hrep : (List.replicate (w - (decChars n).length) (digitOf 0)).map valOf
      = List.replicate (w - (decChars n).length) 0 := by
    rw [List.map_replicate]; rfl
  rw [hrep, List.reverse_replicate, ofDigits_replicate_zero, Nat.mul_zero,
    Nat.add_zero]
  exact decValue_decChars n

theorem padDec_length {w n : ℕ} (hw : 0 < w) (hn : n < 10 ^ w) :
    (padDec w n).length = w := by
  unfold padDec
  rw [List.length_append, List.length_replicate]
  have := decChars_length_le hw hn
  omega

theorem padDec_all_digit (w n : ℕ) : ∀ c ∈ padDec w n, c.isDigit = true := by
  intro c hc
  unfold padDec at hc
  rw [List.mem_append] at hc
  rcases hc with hc | hc
  · rw [List.eq_of_mem_replicate hc]; decide
  · exact decChars_all_digit n c hc

/-- Decimal rendering of an integer, a leading minus sign on negative
values; Python `str(int)`. -/
def decCharsZ (z : ℤ) : List Char :=
  if z < 0 then Char.ofNat 45 :: decChars z.natAbs else decChars z.natAbs

/-! ## Rational value of decimal text, and binary64 rounding

`float(s)` in CPython reads a decimal literal and rounds its exact
value to the nearest IEEE-754 binary64 value, ties to even.  The two
steps are modelled separately: `decQ?` is the exact value of the text,
`roundFloat` the rounding.
-/

/-- Value of decimal text already split at the first non-digit into an
integer part and a remainder: the remainder must be empty, or a point
followed by a non-empty run of digits. -/
def decSplitQ? (ip rest : List Char) : Option ℚ :=
  if ip.isEmpty then none
  else
    match rest with
    | [] => some (decValue ip)
    | c :: fs =>
      if c = Char.ofNat 46 ∧ ¬ fs.isEmpty ∧ fs.all (fun c => c.isDigit) then
        some ((decValue ip : ℚ) + (decValue fs : ℚ) / (10 : ℚ) ^ fs.length)
      else none

/-- Exact rational value of unsigned decimal text `digits[.digits]`;
`none` when the text is not of that shape. -/
def decQfrac? (cs : List Char) : Option ℚ :=
  decSplitQ? (cs.takeWhile fun c => c.isDigit) (cs.dropWhile fun c => c.isDigit)

/-- Exact rational value of decimal text `[-]digits[.digits]` — the
fragment of the Python float-literal grammar that the pipeline's own
rendered values exercise (scientific notation, `inf`/`nan`, digit-group
underscores and surrounding whitespace are outside the modelled
scope).  The binary64 rounding `float()` then applies is `roundFloat`. -/
def decQ? : List Char → Option ℚ
  | [] => none
  | c :: rest =>
    if c = Char.ofNat 45 then (decQfrac? rest).map (fun q => -q)
    else decQfrac? (c :: rest)

/-- Round a rational to the nearest integer, ties to even — the
rounding direction IEEE-754 binary64 arithmetic uses. -/
def roundHalfEven (q : ℚ) : ℤ :=
  if q - ⌊q⌋ < 1 / 2 then ⌊q⌋
  else if 1 / 2 < q - ⌊q⌋ then ⌊q⌋ + 1
  else if ⌊q⌋ % 2 = 0 then ⌊q⌋ else ⌊q⌋ + 1

/-- Binary64 rounding of an exact rational: round the significand to
53 bits at the value's binade, to nearest, ties to even.  This is the
value a CPython `float` holds after a conversion; the exponent range
is treated as unbounded, so overflow to infinity and subnormal
precision loss are outside the modelled scope. -/
def roundFloat (q : ℚ) : ℚ :=
  if q = 0 then 0
  else
    ((roundHalfEven (q * 2 ^ (52 - Int.log 2 |q|)) : ℚ))
      * 2 ^ (Int.log 2 |q| - 52)

/-- Truncation toward zero: Python `int()` applied to a float. -/
def truncQ (q : ℚ) : ℤ :=
  if 0 ≤ q then ⌊q⌋ else -⌊-q⌋

theorem roundHalfEven_intCast (m : ℤ) : roundHalfEven (m : ℚ) = m := by
  unfold roundHalfEven
  rw [Int.floor_intCast]
  norm_num

theorem truncQ_intCast (m : ℤ) : truncQ (m : ℚ) = m := by
  unfold truncQ
  split
  · exact Int.floor_intCast m
  · rw [← Int.cast_neg, Int.floor_intCast]
    omega

theorem roundFloat_eq_of {q : ℚ} {e m : ℤ} (hq : q ≠ 0)
    (hlog : Int.log 2 |q| = e)
    (hm : roundHalfEven (q * 2 ^ (52 - e)) = m) :
    roundFloat q = (m : ℚ) * 2 ^ (e - 52) := by
  unfold roundFloat
  rw [if_neg hq, hlog, hm]

/-- Integers of magnitude below `2 ^ 53` are exactly representable in
binary64: rounding is the identity on them. -/
theorem roundFloat_intCast (m : ℤ) (hm : |m| < 2 ^ 53) :
    roundFloat (m : ℚ) = m := by
  rcases eq_or_ne m 0 with rfl | h0
  · simp [roundFloat]
  · have habs : |(m : ℚ)| = ((m.natAbs : ℕ) : ℚ) := by
      rw [← Int.cast_abs, Int.abs_eq_natAbs, Int.cast_natCast]
    have hlog : Int.log 2 |(m : ℚ)| = (Nat.log 2 m.natAbs : ℤ) := by
      rw [habs, Int.log_natCast]
    have ha0 : m.natAbs ≠ 0 := by omega
    have haLt : m.natAbs < 2 ^ 53 := by
      have := hm
      rw [Int.abs_eq_natAbs] at this
      exact_mod_cast this
    have hL : Nat.log 2 m.natAbs < 53 := Nat.log_lt_of_lt_pow ha0 haLt
    set L : ℕ := Nat.log 2 m.natAbs with hLdef
    have hk : (52 : ℤ) - L = ((52 - L : ℕ) : ℤ) := by omega
    have hcast : (m : ℚ) * 2 ^ ((52 : ℤ) - L) = ((m * 2 ^ (52 - L) : ℤ) : ℚ) := by
      rw [hk, zpow_natCast]
      push_cast
      ring
    have hm2 : roundHalfEven ((m : ℚ) * 2 ^ ((52 : ℤ) - L)) = m * 2 ^ (52 - L) := by
      rw [hcast, roundHalfEven_intCast]
    have := roundFloat_eq_of (q := (m : ℚ)) (e := (L : ℤ))
      (m := m * 2 ^ (52 - L)) (by exact_mod_cast h0) hlog hm2
    rw [this]
    push_cast
    rw [mul_assoc, ← zpow_natCast (2 : ℚ) (52 - L), ← hk,
      ← zpow_add₀ (by norm_num : (2 : ℚ) ≠ 0)]
    norm_num

/-- A value fixed by binary64 rounding has a denominator that is a
power of two, hence one dividing `10 ^ den`: its decimal expansion
with `den` fractional digits is exact. -/
theorem den_dvd_of_roundFloat_fix {q : ℚ} (h : roundFloat q = q) :
    q.den ∣ 10 ^ q.den := by
  rcases eq_or_ne q 0 with rfl | h0
  · simp
  · unfold roundFloat at h
    rw [if_neg h0] at h
    set e := Int.log 2 |q| with he
    set m := roundHalfEven (q * 2 ^ (52 - e)) with hmdef
    have hdvd2 : ∃ k : ℕ, q.den ∣ 2 ^ k := by
      by_cases hle : (52 : ℤ) ≤ e
      · refine ⟨0, ?_⟩
        have hq : q = ((m * 2 ^ (e - 52).toNat : ℤ) : ℚ) := by
          rw [← h]
          push_cast
          rw [← zpow_natCast (2 : ℚ), Int.toNat_of_nonneg (by omega)]
        rw [hq, Rat.den_intCast]
        exact Nat.one_dvd _
      · refine ⟨(52 - e).toNat, ?_⟩
        have hq : q = Rat.divInt m (2 ^ (52 - e).toNat) := by
          rw [Rat.divInt_eq_div, ← h]
          push_cast
          rw [← zpow_natCast (2 : ℚ) (52 - e).toNat,
            Int.toNat_of_nonneg (by omega), eq_div_iff
              (by positivity), mul_assoc,
            ← zpow_add₀ (by norm_num : (2 : ℚ) ≠ 0)]
          norm_num
        have := Rat.den_dvd m (2 ^ (52 - e).toNat)
        rw [← hq] at this
        have hcast : ((2 : ℤ) ^ (52 - e).toNat) = ((2 ^ (52 - e).toNat : ℕ) : ℤ) := by
          push_cast; ring
        rw [hcast] at this
        exact_mod_cast this
    obtain ⟨k, hk⟩ := hdvd2
    obtain ⟨j, _, hj⟩ := (Nat.dvd_prime_pow Nat.prime_two).mp hk
    have hjlt : j < q.den := by rw [hj]; exact Nat.lt_two_pow j
    calc q.den = 2 ^ j := hj
    _ ∣ 2 ^ q.den := pow_dvd_pow 2 (by omega)
    _ ∣ 10 ^ q.den := pow_dvd_pow_of_dvd (by norm_num) q.den

/-- Exact decimal rendering of a float value.  CPython `str` on a
float prints the shortest decimal string that reads back, through
binary64 rounding, to the same value (switching to scientific notation
for very large or small magnitudes); the model prints an exact decimal
expansion of the value instead.  Both renderings denote decimals that
round back to the identical float, which is the only property of the
rendering the pipeline's round-trip behaviour depends on.  The
expansion is exact precisely when the denominator divides `10 ^ den`,
which holds for every binary64 value by `den_dvd_of_roundFloat_fix`. -/
def floatChars (q : ℚ) : List Char :=
  (if q < 0 then [Char.ofNat 45] else [])
    ++ decChars (q.num.natAbs * (10 ^ q.den / q.den) / 10 ^ q.den)
    ++ Char.ofNat 46
      :: padDec q.den (q.num.natAbs * (10 ^ q.den / q.den) % 10 ^ q.den)

theorem takeWhile_append_not {p : Char → Bool} {xs : List Char} {c : Char}
    {rest : List Char} (hxs : ∀ x ∈ xs, p x = true) (hc : p c = false) :
    (xs ++ c :: rest).takeWhile p = xs
      ∧ (xs ++ c :: rest).dropWhile p = c :: rest := by
  induction xs with
  | nil => simp [List.takeWhile_cons, List.dropWhile_cons, hc]
  | cons x xs ih =>
    have hx : p x = true := hxs x (by simp)
    have ih' := ih fun y hy => hxs y (by simp [hy])
    simp [List.takeWhile_cons, List.dropWhile_cons, hx, ih'.1, ih'.2]

theorem isEmpty_false_of_ne_nil {l : List Char} (h : l ≠ []) :
    l.isEmpty = false := by
  cases l with
  | nil => exact absurd rfl h
  | cons a l => rfl

theorem decQfrac?_shape {ip : ℕ} {k fp : ℕ} (hk : 0 < k) (hfp : fp < 10 ^ k) :
    decQfrac? (decChars ip ++ Char.ofNat 46 :: padDec k fp)
      = some ((ip : ℚ) + (fp : ℚ) / (10 : ℚ) ^ k) := by
  have hsplit := @takeWhile_append_not (fun c => c.isDigit)
    (decChars ip) (Char.ofNat 46) (padDec k fp)
    (decChars_all_digit ip) (by decide)
  unfold decQfrac?
  rw [hsplit.1, hsplit.2]
  have hne : (decChars ip).isEmpty = false :=
    isEmpty_false_of_ne_nil (decChars_ne_nil ip)
  have hpadne : (padDec k fp).isEmpty = false := by
    apply isEmpty_false_of_ne_nil
    intro hnil
    have hlen := padDec_length hk hfp
    rw [hnil] at hlen
    simp at hlen
    omega
  have hall : (padDec k fp).all (fun c => c.isDigit) = true :=
    List.all_eq_true.mpr (padDec_all_digit k fp)
  simp [decSplitQ?, hne, hpadne, hall, decValue_decChars, decValue_padDec,
    padDec_length hk hfp]

theorem abs_eq_natAbs_div_den (q : ℚ) :
    |q| = ((q.num.natAbs : ℕ) : ℚ) / ((q.den : ℕ) : ℚ) := by
  have h1 : ((q.num.natAbs : ℕ) : ℚ) = |(q.num : ℚ)| := by
    rw [Int.cast_natAbs, Int.cast_abs]
  have h2 : ((q.den : ℕ) : ℚ) = |((q.den : ℕ) : ℚ)| := by
    rw [abs_of_pos]
    exact_mod_cast q.den_pos
  rw [h1, h2, ← abs_div, Rat.num_div_den]

theorem dec_split_abs (a k N : ℕ) (hk : 0 < k)
    (hNk : N * k = a * 10 ^ k) :
    ((N / 10 ^ k : ℕ) : ℚ) + ((N % 10 ^ k : ℕ) : ℚ) / (10 : ℚ) ^ k
      = (a : ℚ) / (k : ℚ) := by
  have hsplitN : ((N : ℕ) : ℚ)
      = ((N / 10 ^ k : ℕ) : ℚ) * (10 : ℚ) ^ k + ((N % 10 ^ k : ℕ) : ℚ) := by
    conv_lhs => rw [← Nat.div_add_mod N (10 ^ k)]
    push_cast
    ring
  have hNkQ : ((N : ℕ) : ℚ) * (k : ℚ) = (a : ℚ) * (10 : ℚ) ^ k := by
    exact_mod_cast hNk
  have h10 : ((10 : ℚ) ^ k) ≠ 0 := by positivity
  have hkQ : ((k : ℕ) : ℚ) ≠ 0 := by exact_mod_cast hk.ne.symm
  field_simp
  linear_combination hNkQ - ((k : ℕ) : ℚ) * hsplitN

/-- Reading back the exact decimal rendering of a float recovers the
value exactly, whenever the denominator makes the rendering exact. -/
theorem decQ?_floatChars {q : ℚ} (hden : q.den ∣ 10 ^ q.den) :
    decQ? (floatChars q) = some q := by
  have hkpos : 0 < q.den := q.den_pos
  have hNk : q.num.natAbs * (10 ^ q.den / q.den) * q.den
      = q.num.natAbs * 10 ^ q.den := by
    rw [Nat.mul_assoc, Nat.div_mul_cancel hden]
  have hfplt : q.num.natAbs * (10 ^ q.den / q.den) % 10 ^ q.den < 10 ^ q.den :=
    Nat.mod_lt _ (by positivity)
  have habs : ((q.num.natAbs * (10 ^ q.den / q.den) / 10 ^ q.den : ℕ) : ℚ)
      + ((q.num.natAbs * (10 ^ q.den / q.den) % 10 ^ q.den : ℕ) : ℚ)
        / (10 : ℚ) ^ q.den = |q| := by
    rw [dec_split_abs _ _ _ hkpos hNk, ← abs_eq_natAbs_div_den]
  unfold floatChars
  by_cases hneg : q < 0
  · rw [if_pos hneg]
    simp only [List.singleton_append, List.cons_append]
    simp only [decQ?, if_true, List.nil_append]
    rw [decQfrac?_shape hkpos hfplt, Option.map_some']
    rw [habs, abs_of_neg hneg, neg_neg]
  · rw [if_neg hneg]
    simp only [List.nil_append]
    obtain ⟨c, cs', hcc⟩ : ∃ c cs',
        decChars (q.num.natAbs * (10 ^ q.den / q.den) / 10 ^ q.den) = c :: cs' := by
      cases hd : decChars (q.num.natAbs * (10 ^ q.den / q.den) / 10 ^ q.den) with
      | nil => exact absurd hd (decChars_ne_nil _)
      | cons c cs' => exact ⟨c, cs', rfl⟩
    have hcdig : c.isDigit = true := by
      apply decChars_all_digit (q.num.natAbs * (10 ^ q.den / q.den) / 10 ^ q.den)
      rw [hcc]
      simp
    have hcne : ¬ c = Char.ofNat 45 := by
      intro hc
      rw [hc] at hcdig
      exact absurd hcdig (by decide)
    rw [hcc, List.cons_append]
    simp only [decQ?]
    rw [if_neg hcne, ← List.cons_append, ← hcc, decQfrac?_shape hkpos hfplt,
      habs, abs_of_nonneg (not_lt.mp hneg)]

/-! ## Timestamp and timedelta text

pandas renders timestamps as `YYYY-MM-DD HH:MM:SS` and timedeltas as
`<days> days [+]HH:MM:SS`, both followed by an optional sub-second
fraction: absent for zero nanoseconds, six digits when the value is a
whole number of microseconds, nine digits otherwise.
-/

/-- Sub-second fraction text pandas appends to timestamp and timedelta
text. -/
def fracChars (ns : ℕ) : List Char :=
  if ns = 0 then []
  else if ns % 1000 = 0 then Char.ofNat 46 :: padDec 6 (ns / 1000)
  else Char.ofNat 46 :: padDec 9 ns

/-- Reading of an optional sub-second fraction, right-padding the
digits to nanosecond precision as the pandas text readers do. -/
def fracValue? : List Char → Option ℕ
  | [] => some 0
  | c :: ds =>
    if c = Char.ofNat 46 ∧ ¬ ds.isEmpty ∧ ds.all (fun c => c.isDigit)
        ∧ ds.length ≤ 9 then
      some (decValue ds * 10 ^ (9 - ds.length))
    else none

theorem fracValue?_fracChars {ns : ℕ} (h : ns < 1000000000) :
    fracValue? (fracChars ns) = some ns := by
  unfold fracChars
  by_cases h0 : ns = 0
  · subst h0
    rfl
  · rw [if_neg h0]
    by_cases h3 : ns % 1000 = 0
    · rw [if_pos h3]
      have hlt : ns / 1000 < 10 ^ 6 := by omega
      have hlen := padDec_length (by norm_num) hlt
      have hpadne : (padDec 6 (ns / 1000)).isEmpty = false := by
        apply isEmpty_false_of_ne_nil
        intro hnil
        rw [hnil] at hlen
        simp at hlen
      have hall : (padDec 6 (ns / 1000)).all (fun c => c.isDigit) = true :=
        List.all_eq_true.mpr (padDec_all_digit _ _)
      simp only [fracValue?]
      rw [if_pos ⟨trivial, by simp [hpadne], hall, by rw [hlen]; norm_num⟩]
      rw [decValue_padDec, hlen]
      norm_num
      omega
    · rw [if_neg h3]
      have hlt : ns < 10 ^ 9 := by omega
      have hlen := padDec_length (by norm_num) hlt
      have hpadne : (padDec 9 ns).isEmpty = false := by
        apply isEmpty_false_of_ne_nil
        intro hnil
        rw [hnil] at hlen
        simp at hlen
      have hall : (padDec 9 ns).all (fun c => c.isDigit) = true :=
        List.all_eq_true.mpr (padDec_all_digit _ _)
      simp only [fracValue?]
      rw [if_pos ⟨trivial, by simp [hpadne], hall, by rw [hlen]⟩]
      rw [decValue_padDec, hlen]
      norm_num

/-- A pandas `Timestamp`, by its calendar fields.  pandas stores
nanoseconds since the epoch; the fields are the observable content
that the text rendering and reading exchange, and distinct valid field
tuples denote distinct instants, so field equality models `Timestamp`
equality on the text round-trip path. -/
structure PyTimestamp where
  year : ℕ
  month : ℕ
  day : ℕ
  hour : ℕ
  minute : ℕ
  second : ℕ
  nanosecond : ℕ
deriving DecidableEq

/-- Field ranges of a printable timestamp.  pandas timestamps satisfy
the tighter calendar constraints (real month lengths, years 1677–2262
at nanosecond resolution), which imply these. -/
def ValidTs (t : PyTimestamp) : Prop :=
  t.year < 10000 ∧ 0 < t.month ∧ t.month ≤ 12 ∧ 0 < t.day ∧ t.day ≤ 31
    ∧ t.hour < 24 ∧ t.minute < 60 ∧ t.second < 60
    ∧ t.nanosecond < 1000000000

instance (t : PyTimestamp) : Decidable (ValidTs t) := by
  unfold ValidTs
  infer_instance

/-- Text of a timestamp, `str(pd.Timestamp)`:
`YYYY-MM-DD HH:MM:SS` plus the sub-second fraction (the separator
codes are `-`, `-`, space, `:`, `:`). -/
def tsChars (t : PyTimestamp) : List Char :=
  padDec 4 t.year ++ Char.ofNat 45 :: (padDec 2 t.month
    ++ Char.ofNat 45 :: (padDec 2 t.day
    ++ Char.ofNat 32 :: (padDec 2 t.hour
    ++ Char.ofNat 58 :: (padDec 2 t.minute
    ++ Char.ofNat 58 :: (padDec 2 t.second
    ++ fracChars t.nanosecond)))))

/-- Fixed-width decimal field reader: exactly `w` digit characters,
returning the value and the remaining text. -/
def fieldValue? (w : ℕ) (cs : List Char) : Option (ℕ × List Char) :=
  if (cs.take w).length = w ∧ (cs.take w).all (fun c => c.isDigit) then
    some (decValue (cs.take w), cs.drop w)
  else none

/-- One literal separator character. -/
def sepValue? (c : Char) : List Char → Option (List Char)
  | [] => none
  | x :: rest => if x = c then some rest else none

theorem fieldValue?_padDec_append {w n : ℕ} (hw : 0 < w) (hn : n < 10 ^ w)
    (rest : List Char) :
    fieldValue? w (padDec w n ++ rest) = some (n, rest) := by
  have hlen := padDec_length hw hn
  have htakeGen : ∀ l : List Char, l.length = w → (l ++ rest).take w = l := by
    intro l hl
    rw [← hl]
    exact List.take_left _ _
  have hdropGen : ∀ l : List Char, l.length = w → (l ++ rest).drop w = rest := by
    intro l hl
    rw [← hl]
    exact List.drop_left _ _
  have htake := htakeGen _ hlen
  have hdrop := hdropGen _ hlen
  unfold fieldValue?
  rw [htake, hdrop,
    if_pos ⟨hlen, List.all_eq_true.mpr (padDec_all_digit w n)⟩,
    decValue_padDec]

theorem sepValue?_cons (c : Char) (rest : List Char) :
    sepValue? c (c :: rest) = some rest := by
  simp [sepValue?]

/-- Reading of canonical timestamp text `YYYY-MM-DD HH:MM:SS[.frac]` —
the grammar `str(pd.Timestamp)` emits.  `pd.to_datetime` accepts a
broad family of date formats; only the canonical one, the one the
pipeline's own rendering produces, is modelled. -/
def tsOfChars? (cs : List Char) : Option PyTimestamp := do
  let (y, r1) ← fieldValue? 4 cs
  let r2 ← sepValue? (Char.ofNat 45) r1
  let (mo, r3) ← fieldValue? 2 r2
  let r4 ← sepValue? (Char.ofNat 45) r3
  let (d, r5) ← fieldValue? 2 r4
  let r6 ← sepValue? (Char.ofNat 32) r5
  let (h, r7) ← fieldValue? 2 r6
  let r8 ← sepValue? (Char.ofNat 58) r7
  let (mi, r9) ← fieldValue? 2 r8
  let r10 ← sepValue? (Char.ofNat 58) r9
  let (s, r11) ← fieldValue? 2 r10
  let ns ← fracValue? r11
  pure ⟨y, mo, d, h, mi, s, ns⟩

/-- Reading back rendered timestamp text recovers the fields. -/
theorem tsOfChars?_tsChars {t : PyTimestamp} (h : ValidTs t) :
    tsOfChars? (tsChars t) = some t := by
  obtain ⟨h1, h2, h3, h4, h5, h6, h7, h8, h9⟩ := h
  unfold tsChars tsOfChars?
  rw [fieldValue?_padDec_append (by norm_num) (by omega)]
  simp only [Option.bind_eq_bind, Option.some_bind]
  rw [sepValue?_cons]
  simp only [Option.some_bind]
  rw [fieldValue?_padDec_append (by norm_num) (by omega)]
  simp only [Option.some_bind]
  rw [sepValue?_cons]
  simp only [Option.some_bind]
  rw [fieldValue?_padDec_append (by norm_num) (by omega)]
  simp only [Option.some_bind]
  rw [sepValue?_cons]
  simp only [Option.some_bind]
  rw [fieldValue?_padDec_append (by norm_num) (by omega)]
  simp only [Option.some_bind]
  rw [sepValue?_cons]
  simp only [Option.some_bind]
  rw [fieldValue?_padDec_append (by norm_num) (by omega)]
  simp only [Option.some_bind]
  rw [sepValue?_cons]
  simp only [Option.some_bind]
  rw [fieldValue?_padDec_append (by norm_num) (by omega)]
  simp only [Option.some_bind]
  rw [fracValue?_fracChars (by omega)]
  simp only [Option.some_bind]
  rfl

/-- The six characters of the literal ` days ` that pandas places
between a timedelta day count and its time of day. -/
def daysSep : List Char :=
  [Char.ofNat 32, Char.ofNat 100, Char.ofNat 97, Char.ofNat 121,
    Char.ofNat 115, Char.ofNat 32]

/-- Text of a timedelta of `n` nanoseconds, `str(pd.Timedelta)`:
`<days> days [+]HH:MM:SS[.frac]`.  The day count is the floor
division of the total by a day, the time of day the (always
non-negative) remainder, and a `+` marks the time of day when the day
count is negative. -/
def tdChars (n : ℤ) : List Char :=
  decCharsZ (Int.ediv n 86400000000000)
    ++ (daysSep
    ++ ((if Int.ediv n 86400000000000 < 0 then [Char.ofNat 43] else [])
    ++ (padDec 2 ((Int.emod n 86400000000000).toNat / 3600000000000)
    ++ Char.ofNat 58
      :: (padDec 2 ((Int.emod n 86400000000000).toNat % 3600000000000
            / 60000000000)
    ++ Char.ofNat 58
      :: (padDec 2 ((Int.emod n 86400000000000).toNat % 60000000000
            / 1000000000)
    ++ fracChars ((Int.emod n 86400000000000).toNat % 1000000000))))))

/-- Reading of a timedelta time-of-day `HH:MM:SS[.frac]`, in
nanoseconds. -/
def tdTimeValue? (cs : List Char) : Option ℤ := do
  let (h, r1) ← fieldValue? 2 cs
  let r2 ← sepValue? (Char.ofNat 58) r1
  let (mi, r3) ← fieldValue? 2 r2
  let r4 ← sepValue? (Char.ofNat 58) r3
  let (s, r5) ← fieldValue? 2 r4
  let ns ← fracValue? r5
  pure ((h : ℤ) * 3600000000000 + (mi : ℤ) * 60000000000
    + (s : ℤ) * 1000000000 + (ns : ℤ))

/-- Reading of the part of timedelta text after the day count: the
literal ` days `, an optional `+`, and the time of day. -/
def tdAfterDays? (days : ℤ) (cs : List Char) : Option ℤ :=
  if cs.take 6 = daysSep then
    match cs.drop 6 with
    | [] => none
    | c :: rest =>
      (if c = Char.ofNat 43 then tdTimeValue? rest
        else tdTimeValue? (c :: rest)).map
        (fun tod => days * 86400000000000 + tod)
  else none

/-- Reading of unsigned-day-count timedelta text, `sgn` the sign read
off the front. -/
def tdBody? (sgn : ℤ) (cs : List Char) : Option ℤ :=
  if (cs.takeWhile fun c => c.isDigit).isEmpty then none
  else
    tdAfterDays? (sgn * (decValue (cs.takeWhile fun c => c.isDigit) : ℤ))
      (cs.dropWhile fun c => c.isDigit)

/-- Reading of canonical timedelta text, the grammar
`str(pd.Timedelta)` emits.  `pd.to_timedelta` accepts further formats
(`1h`, bare `HH:MM:SS`, ISO durations); only the canonical one, which
the pipeline's own rendering produces, is modelled. -/
def tdOfChars? (cs : List Char) : Option ℤ :=
  match cs with
  | [] => none
  | c :: rest =>
    if c = Char.ofNat 45 then tdBody? (-1) rest else tdBody? 1 (c :: rest)

theorem tdTimeValue?_shape {h mi s ns : ℕ} (hh : h < 100) (hmi : mi < 100)
    (hs : s < 100) (hns : ns < 1000000000) :
    tdTimeValue? (padDec 2 h ++ Char.ofNat 58 :: (padDec 2 mi
        ++ Char.ofNat 58 :: (padDec 2 s ++ fracChars ns)))
      = some ((h : ℤ) * 3600000000000 + (mi : ℤ) * 60000000000
          + (s : ℤ) * 1000000000 + (ns : ℤ)) := by
  unfold tdTimeValue?
  rw [fieldValue?_padDec_append (by norm_num) (by omega)]
  simp only [Option.bind_eq_bind, Option.some_bind]
  rw [sepValue?_cons]
  simp only [Option.some_bind]
  rw [fieldValue?_padDec_append (by norm_num) (by omega)]
  simp only [Option.some_bind]
  rw [sepValue?_cons]
  simp only [Option.some_bind]
  rw [fieldValue?_padDec_append (by norm_num) (by omega)]
  simp only [Option.some_bind]
  rw [fracValue?_fracChars (by omega)]
  simp only [Option.some_bind]
  rfl

theorem tdAfterDays?_cons (days : ℤ) (c : Char) (rest : List Char) :
    tdAfterDays? days (daysSep ++ c :: rest)
      = (if c = Char.ofNat 43 then tdTimeValue? rest
          else tdTimeValue? (c :: rest)).map
          (fun tod => days * 86400000000000 + tod) := by
  have htake : (daysSep ++ c :: rest).take 6 = daysSep := rfl
  have hdrop : (daysSep ++ c :: rest).drop 6 = c :: rest := rfl
  unfold tdAfterDays?
  rw [htake, hdrop, if_pos rfl]

theorem tdDigitsSplit (a : ℕ) (X : List Char) :
    ((decChars a ++ (daysSep ++ X)).takeWhile fun c => c.isDigit) = decChars a
      ∧ ((decChars a ++ (daysSep ++ X)).dropWhile fun c => c.isDigit)
          = daysSep ++ X :=
  takeWhile_append_not (decChars_all_digit a) (by decide)

/-- Reading back rendered timedelta text recovers the value, for every
total-nanosecond count. -/
theorem tdOfChars?_tdChars (n : ℤ) : tdOfChars? (tdChars n) = some n := by
  have hemod0 : 0 ≤ Int.emod n 86400000000000 := Int.emod_nonneg n (by norm_num)
  have hemodlt : Int.emod n 86400000000000 < 86400000000000 :=
    Int.emod_lt_of_pos n (by norm_num)
  have heq : 86400000000000 * Int.ediv n 86400000000000
      + Int.emod n 86400000000000 = n := Int.ediv_add_emod n 86400000000000
  set days := Int.ediv n 86400000000000 with hdaysdef
  set rem := (Int.emod n 86400000000000).toNat with hremdef
  have hremlt : rem < 86400000000000 := by omega
  have hremeq : (rem : ℤ) = Int.emod n 86400000000000 := by omega
  set h := rem / 3600000000000 with hhdef
  set mi := rem % 3600000000000 / 60000000000 with hmidef
  set s := rem % 60000000000 / 1000000000 with hsdef
  set ns := rem % 1000000000 with hnsdef
  have htod : (h : ℤ) * 3600000000000 + (mi : ℤ) * 60000000000
      + (s : ℤ) * 1000000000 + (ns : ℤ) = (rem : ℤ) := by
    have : h * 3600000000000 + mi * 60000000000 + s * 1000000000 + ns
        = rem := by omega
    exact_mod_cast this
  have htime := @tdTimeValue?_shape h mi s ns
    (by omega) (by omega) (by omega) (by omega)
  have hsepshape : ∀ X : List Char, daysSep ++ X
      = Char.ofNat 32 :: ([Char.ofNat 100, Char.ofNat 97, Char.ofNat 121,
          Char.ofNat 115, Char.ofNat 32] ++ X) := fun X => rfl
  by_cases hdn : days < 0
  · -- negative day count: a sign on the count and a plus on the time
    unfold tdChars
    rw [← hdaysdef, ← hremdef, ← hhdef, ← hmidef, ← hsdef, ← hnsdef,
      if_pos hdn]
    have hdecz : decCharsZ days = Char.ofNat 45 :: decChars days.natAbs := by
      unfold decCharsZ
      rw [if_pos hdn]
    rw [hdecz]
    simp only [List.cons_append, List.singleton_append, List.nil_append]
    simp only [tdOfChars?, if_true]
    unfold tdBody?
    rw [(tdDigitsSplit _ _).1, (tdDigitsSplit _ _).2,
      if_neg (by simp [isEmpty_false_of_ne_nil (decChars_ne_nil _)])]
    rw [decValue_decChars, tdAfterDays?_cons, if_pos rfl, htime]
    simp only [Option.map_some']
    congr 1
    rw [htod]
    omega
  · -- non-negative day count
    unfold tdChars
    rw [← hdaysdef, ← hremdef, ← hhdef, ← hmidef, ← hsdef, ← hnsdef,
      if_neg hdn]
    have hdecz : decCharsZ days = decChars days.natAbs := by
      unfold decCharsZ
      rw [if_neg hdn]
    rw [hdecz]
    simp only [List.nil_append]
    obtain ⟨c, cs', hcc⟩ : ∃ c cs', decChars days.natAbs = c :: cs' := by
      cases hd : decChars days.natAbs with
      | nil => exact absurd hd (decChars_ne_nil _)
      | cons c cs' => exact ⟨c, cs', rfl⟩
    have hcdig : c.isDigit = true := by
      apply decChars_all_digit days.natAbs
      rw [hcc]
      simp
    have hcne : ¬ c = Char.ofNat 45 := by
      intro hc
      rw [hc] at hcdig
      exact absurd hcdig (by decide)
    rw [hcc, List.cons_append]
    simp only [tdOfChars?]
    rw [if_neg hcne, ← List.cons_append, ← hcc]
    unfold tdBody?
    rw [(tdDigitsSplit _ _).1, (tdDigitsSplit _ _).2,
      if_neg (by simp [isEmpty_false_of_ne_nil (decChars_ne_nil _)])]
    rw [decValue_decChars]
    obtain ⟨c2, cs2, hcc2⟩ : ∃ c2 cs2, padDec 2 h = c2 :: cs2 := by
      cases hd : padDec 2 h with
      | nil =>
        have hlen := padDec_length (w := 2) (n := h) (by norm_num) (by omega)
        rw [hd] at hlen
        simp at hlen
      | cons c2 cs2 => exact ⟨c2, cs2, rfl⟩
    have hc2dig : c2.isDigit = true := by
      apply padDec_all_digit 2 h
      rw [hcc2]
      simp
    have hc2ne : ¬ c2 = Char.ofNat 43 := by
      intro hc
      rw [hc] at hc2dig
      exact absurd hc2dig (by decide)
    rw [hcc2]
    rw [List.cons_append]
    rw [tdAfterDays?_cons]
    rw [if_neg hc2ne]
    rw [← List.cons_append]
    rw [← hcc2]
    rw [htime]
    simp only [Option.map_some']
    refine congrArg some ?_
    rw [htod]
    omega

/-! ## Values and `cast_to_type` (`src/validate.py`)

A cell of the pipeline's dataset holds one of the values below.
`null` stands for every value `pd.isna` accepts (`None`, float `NaN`,
`NaT`); Python ints are unbounded `ℤ`; a float is an exact rational,
with the binary64 rounding `roundFloat` applied wherever the source
converts to `float`; a timestamp is its calendar fields; a timedelta
its total nanoseconds.  `none` models a raised `ValueError`.
-/

inductive Value where
  | null
  | vint (n : ℤ)
  | vfloat (q : ℚ)
  | vstr (s : List Char)
  | vbool (b : Bool)
  | vts (t : PyTimestamp)
  | vtd (ns : ℤ)
deriving DecidableEq

/-- Python truthiness `bool(value)` for the modelled values: zero
numbers and the empty string are false; a timestamp defines no
`__bool__` and is always true; a `pd.Timedelta` inherits
`datetime.timedelta.__bool__`, which is true iff the duration is
nonzero, so `bool(pd.Timedelta(0))` is `False`.  (`null` never
reaches a truthiness test in `cast_to_type` — `pd.isna`
short-circuits first — and `NaN` truthiness is true.) -/
def truthy : Value → Bool
  | .null => true
  | .vint n => decide (n ≠ 0)
  | .vfloat q => decide (q ≠ 0)
  | .vstr s => ¬ s.isEmpty
  | .vbool b => b
  | .vts _ => true
  | .vtd ns => decide (ns ≠ 0)

/-- Python `str(value)` as used by the `str` branch of
`cast_to_type` (a `pd.isna` value never reaches it). -/
def strOfValue : Value → List Char
  | .null => []
  | .vint n => decCharsZ n
  | .vfloat q => floatChars q
  | .vstr s => s
  | .vbool b => if b then [Char.ofNat 84, Char.ofNat 114, Char.ofNat 117,
      Char.ofNat 101]
    else [Char.ofNat 70, Char.ofNat 97, Char.ofNat 108, Char.ofNat 115,
      Char.ofNat 101]
  | .vts t => tsChars t
  | .vtd ns => tdChars ns

/-- Python `float(value)`: identity on floats, binary64 rounding of
an int, decimal text reading then rounding for a string, `1.0`/`0.0`
for a bool; a timestamp or timedelta raises `TypeError`. -/
def toFloat? : Value → Option ℚ
  | .null => none
  | .vint n => some (roundFloat n)
  | .vfloat q => some q
  | .vstr s => (decQ? s).map roundFloat
  | .vbool b => some (if b then 1 else 0)
  | .vts _ => none
  | .vtd _ => none

/-- Uppercasing of a string, Python `str.upper` on the ASCII fragment
in play. -/
def upperChars (s : List Char) : List Char :=
  s.map Char.toUpper

/-- The three string forms `('TRUE', '1', 'YES')` that the `bool`
branch of `cast_to_type` accepts as true after uppercasing. -/
def pyBoolTrueLits : List (List Char) :=
  [[Char.ofNat 84, Char.ofNat 82, Char.ofNat 85, Char.ofNat 69],
    [Char.ofNat 49],
    [Char.ofNat 89, Char.ofNat 69, Char.ofNat 83]]

/-- The `parse_timedelta` helper of `src/validate.py`: a `pd.isna`
value and an already-typed `Timedelta` are returned unchanged, a
string goes through `pd.to_timedelta`, and every other value is
returned unchanged; only the string read can fail, which the source
re-raises as `ValueError`. -/
def parse_timedelta : Value → Option Value
  | .null => some .null
  | .vtd ns => some (.vtd ns)
  | .vstr s => (tdOfChars? s).map .vtd
  | v => some v

/-- Civil-from-days conversion (the standard era/year-of-era calendar
algorithm) from nanoseconds since the Unix epoch to calendar fields,
used to model `pd.to_datetime` on a number.  No claim exercises this
path, and nothing is proved about it. -/
def epochNsToTs (n : ℤ) : PyTimestamp :=
  let rem := (Int.emod n 86400000000000).toNat
  let z := Int.ediv n 86400000000000 + 719468
  let era := Int.ediv z 146097
  let doe := (Int.emod z 146097).toNat
  let yoe := (doe - doe / 1460 + doe / 36524 - doe / 146096) / 365
  let y := (yoe : ℤ) + era * 400
  let doy := doe - (365 * yoe + yoe / 4 - yoe / 100)
  let mp := (5 * doy + 2) / 153
  let d := doy - (153 * mp + 2) / 5 + 1
  let m := if mp < 10 then mp + 3 else mp - 9
  ⟨(if m ≤ 2 then y + 1 else y).toNat, m, d,
    rem / 3600000000000, rem % 3600000000000 / 60000000000,
    rem % 60000000000 / 1000000000, rem % 1000000000⟩

/-- `pd.to_datetime(value)` as the `datetime` branch of
`cast_to_type` uses it: a string is read (canonical format, see
`tsOfChars?`), an existing timestamp passes through, and a number is
taken as nanoseconds since the epoch; a boolean or timedelta
raises. -/
def pdToDatetime? : Value → Option Value
  | .vstr s => (tsOfChars? s).map .vts
  | .vts t => some (.vts t)
  | .vint n => some (.vts (epochNsToTs n))
  | .vfloat q => some (.vts (epochNsToTs (truncQ q)))
  | _ => none

/-- `cast_to_type` of `src/validate.py`.  A `pd.isna` value is
returned unchanged before any branch; `int` parses through `float`
then truncates toward zero; `str` always succeeds; `bool` never
fails (pass-through, uppercased string membership, or truthiness);
an unknown target type returns the value unchanged.  `none` is the
`ValueError` the source raises when a converter fails (the source
catches `ValueError`/`TypeError` and re-raises `ValueError`; the only
escaping class, `OverflowError` from `float` on a huge int, is
exponent overflow, outside the modelled range). -/
def cast_to_type (value : Value) (target_type : String) : Option Value :=
  if value = .null then some .null
  else if target_type = "int" then
    (toFloat? value).map (fun q => .vint (truncQ q))
  else if target_type = "float" then
    (toFloat? value).map .vfloat
  else if target_type = "str" then
    some (.vstr (strOfValue value))
  else if target_type = "bool" then
    match value with
    | .vbool b => some (.vbool b)
    | .vstr s => some (.vbool (decide (upperChars s ∈ pyBoolTrueLits)))
    | v => some (.vbool (truthy v))
  else if target_type = "datetime" then
    pdToDatetime? value
  else if target_type = "timedelta" then
    parse_timedelta value
  else
    some value

/-! ## Claims C7, C8, C10 — `cast_to_type` behaviour -/

/-- C7: `cast_to_type` on a null input returns null for every target
type, attempting no conversion and raising no error
(`src/validate.py` lines 52–54). -/
theorem c7_cast_null_is_null (target_type : String) :
    cast_to_type .null target_type = some .null := by
  unfold cast_to_type
  rw [if_pos rfl]

/-- C8: the `bool` branch of `cast_to_type` never fails: a boolean
passes through, a string maps to true exactly when its uppercasing is
one of `TRUE`, `1`, `YES` (and to false otherwise, with no error), and
every other non-null value is coerced by generic truthiness — for a
timedelta that is `datetime.timedelta.__bool__`, true iff the
duration is nonzero, so `bool(pd.Timedelta(0))` is `False`, still a
value and not an error (`src/validate.py` lines 67–73). -/
theorem c8_bool_cast_never_fails :
    (∀ value : Value, cast_to_type value "bool" ≠ none)
    ∧ (∀ b : Bool, cast_to_type (.vbool b) "bool" = some (.vbool b))
    ∧ (∀ s : List Char, cast_to_type (.vstr s) "bool" = some (.vbool true)
        ∨ cast_to_type (.vstr s) "bool" = some (.vbool false))
    ∧ (∀ s : List Char, cast_to_type (.vstr s) "bool" = some (.vbool true)
        ↔ upperChars s ∈ pyBoolTrueLits)
    ∧ (∀ n : ℤ, cast_to_type (.vint n) "bool"
        = some (.vbool (truthy (.vint n))))
    ∧ (∀ q : ℚ, cast_to_type (.vfloat q) "bool"
        = some (.vbool (truthy (.vfloat q))))
    ∧ (∀ t : PyTimestamp, cast_to_type (.vts t) "bool"
        = some (.vbool (truthy (.vts t))))
    ∧ (∀ d : ℤ, cast_to_type (.vtd d) "bool"
        = some (.vbool (decide (d ≠ 0)))) := by
  refine ⟨?_, ?_, ?_, ?_, ?_, ?_, ?_, ?_⟩
  · intro v h
    cases v <;> simp [cast_to_type] at h
  · intro b
    rfl
  · intro s
    by_cases h : upperChars s ∈ pyBoolTrueLits
    · left
      simp [cast_to_type, h]
    · right
      simp [cast_to_type, h]
  · intro s
    simp [cast_to_type]
  · intro n
    rfl
  · intro q
    rfl
  · intro t
    rfl
  · intro d
    rfl

/-- C10: the `timedelta` branch of `cast_to_type` returns every
non-null value that is neither a string nor an already-typed
timedelta unchanged and never fails on it; only a string input is
parsed, and only a string can produce a cast error
(`src/validate.py` lines 9–35 and 78–79). -/
theorem c10_timedelta_passthrough :
    (∀ n : ℤ, cast_to_type (.vint n) "timedelta" = some (.vint n))
    ∧ (∀ q : ℚ, cast_to_type (.vfloat q) "timedelta" = some (.vfloat q))
    ∧ (∀ b : Bool, cast_to_type (.vbool b) "timedelta" = some (.vbool b))
    ∧ (∀ t : PyTimestamp, cast_to_type (.vts t) "timedelta" = some (.vts t))
    ∧ (∀ value : Value, cast_to_type value "timedelta" = none
        → ∃ s, value = .vstr s) := by
  refine ⟨fun n => rfl, fun q => rfl, fun b => rfl, fun t => rfl, ?_⟩
  intro v h
  cases v with
  | vstr s => exact ⟨s, rfl⟩
  | null => simp [cast_to_type] at h
  | vint n => simp [cast_to_type, parse_timedelta] at h
  | vfloat q => simp [cast_to_type, parse_timedelta] at h
  | vbool b => simp [cast_to_type, parse_timedelta] at h
  | vts t => simp [cast_to_type, parse_timedelta] at h
  | vtd d => simp [cast_to_type, parse_timedelta] at h

/-- Witness for C10: a concrete non-string value passes through, and
the one way to fail is on a string. -/
theorem c10_timedelta_passthrough_witness :
    cast_to_type (.vint 5) "timedelta" = some (.vint 5)
    ∧ cast_to_type (.vstr [Char.ofNat 120]) "timedelta" = none
    ∧ ∃ s, Value.vstr [Char.ofNat 120] = .vstr s :=
  ⟨c10_timedelta_passthrough.1 5, by decide,
    c10_timedelta_passthrough.2.2.2.2 _ (by decide)⟩

/-! ## Claim C9 — round-trip through `str` -/

theorem takeWhile_all {p : Char → Bool} {xs : List Char}
    (h : ∀ x ∈ xs, p x = true) :
    xs.takeWhile p = xs ∧ xs.dropWhile p = [] := by
  induction xs with
  | nil => exact ⟨rfl, rfl⟩
  | cons x xs ih =>
    have hx := h x (by simp)
    have ih' := ih fun y hy => h y (by simp [hy])
    simp [List.takeWhile_cons, List.dropWhile_cons, hx, ih'.1, ih'.2]

theorem decQfrac?_decChars (a : ℕ) :
    decQfrac? (decChars a) = some ((a : ℕ) : ℚ) := by
  have hsplit := takeWhile_all (decChars_all_digit a)
  unfold decQfrac?
  rw [hsplit.1, hsplit.2]
  have hne := isEmpty_false_of_ne_nil (decChars_ne_nil a)
  simp [decSplitQ?, hne, decValue_decChars]

theorem decQ?_decChars (a : ℕ) :
    decQ? (decChars a) = some ((a : ℕ) : ℚ) := by
  obtain ⟨c, cs', hcc⟩ : ∃ c cs', decChars a = c :: cs' := by
    cases hd : decChars a with
    | nil => exact absurd hd (decChars_ne_nil _)
    | cons c cs' => exact ⟨c, cs', rfl⟩
  have hcdig : c.isDigit = true := by
    apply decChars_all_digit a
    rw [hcc]
    simp
  have hcne : ¬ c = Char.ofNat 45 := by
    intro hc
    rw [hc] at hcdig
    exact absurd hcdig (by decide)
  rw [hcc]
  simp only [decQ?]
  rw [if_neg hcne, ← hcc, decQfrac?_decChars]

/-- Reading back the decimal rendering of an integer recovers it
exactly — precision is lost only afterwards, in the binary64
rounding that `float()` applies. -/
theorem decQ?_decCharsZ (z : ℤ) : decQ? (decCharsZ z) = some ((z : ℤ) : ℚ) := by
  unfold decCharsZ
  by_cases hz : z < 0
  · rw [if_pos hz]
    simp only [decQ?, if_true]
    rw [decQfrac?_decChars]
    simp only [Option.map_some']
    refine congrArg some ?_
    have : ((z.natAbs : ℕ) : ℚ) = -(z : ℚ) := by
      rw [Int.cast_natAbs, Int.cast_abs]
      exact abs_of_neg (by exact_mod_cast hz)
    rw [this, neg_neg]
  · rw [if_neg hz]
    rw [decQ?_decChars]
    refine congrArg some ?_
    rw [Int.cast_natAbs, Int.cast_abs]
    exact abs_of_nonneg (show (0 : ℚ) ≤ (z : ℚ) by
      exact_mod_cast not_lt.mp hz)

/-- Binary64 rounding on one half, the concrete representable float
of the round-trip witness. -/
theorem roundFloat_half : roundFloat (1 / 2 : ℚ) = 1 / 2 := by
  have hlog : Int.log 2 |(1 / 2 : ℚ)| = -1 := by
    rw [abs_of_pos (by norm_num),
      show (1 / 2 : ℚ) = (2 : ℚ) ^ (-1 : ℤ) by norm_num]
    exact Int.log_zpow (by norm_num) (-1)
  have hcast : (1 / 2 : ℚ) * 2 ^ ((52 : ℤ) - (-1)) = ((2 ^ 52 : ℤ) : ℚ) := by
    norm_num
  have hrhe : roundHalfEven ((1 / 2 : ℚ) * 2 ^ ((52 : ℤ) - (-1))) = 2 ^ 52 := by
    rw [hcast, roundHalfEven_intCast]
  have := roundFloat_eq_of (by norm_num) hlog hrhe
  rw [this]
  norm_num

/-- Binary64 rounding of `10 ^ 17 + 1`: the unit is below half an ulp
at that binade (ulp 16), so the value rounds down to `10 ^ 17`. -/
theorem roundFloat_e17 :
    roundFloat ((100000000000000001 : ℚ)) = 100000000000000000 := by
  have hlog : Int.log 2 |(100000000000000001 : ℚ)| = 56 := by
    rw [abs_of_pos (by norm_num),
      show (100000000000000001 : ℚ) = ((100000000000000001 : ℕ) : ℚ) by
        norm_num,
      Int.log_natCast]
    have : Nat.log 2 100000000000000001 = 56 :=
      Nat.log_eq_of_pow_le_of_lt_pow (by norm_num) (by norm_num)
    rw [this]
    norm_num
  have hfl : ⌊(100000000000000001 : ℚ) * (2 : ℚ) ^ ((52 : ℤ) - 56)⌋
      = 6250000000000000 := by
    rw [Int.floor_eq_iff]
    constructor
    · norm_num
    · norm_num
  have hrhe : roundHalfEven ((100000000000000001 : ℚ) * 2 ^ ((52 : ℤ) - 56))
      = 6250000000000000 := by
    unfold roundHalfEven
    rw [hfl]
    rw [if_pos (by norm_num)]
  have := roundFloat_eq_of (by norm_num) hlog hrhe
  rw [this]
  norm_num

/-- C9 counterexample: casting the Python int `10 ^ 17 + 1` to `str`
and the resulting decimal text back to `int` yields
`10 ^ 17` — not an equivalent value — because the `int` caster parses
through binary64 `float`, which cannot represent the original
(`src/validate.py` line 59: `int(float(value))`). -/
theorem c9_round_trip_counterexample :
    Option.bind (cast_to_type (.vint 100000000000000001) "str")
        (fun v => cast_to_type v "int")
      = some (.vint 100000000000000000)
    ∧ (100000000000000000 : ℤ) ≠ 100000000000000001 := by
  constructor
  · have h1 : cast_to_type (.vint 100000000000000001) "str"
        = some (.vstr (decCharsZ 100000000000000001)) := rfl
    rw [h1, Option.some_bind]
    unfold cast_to_type
    rw [if_neg (by simp), if_pos rfl]
    simp only [toFloat?]
    rw [decQ?_decCharsZ]
    simp only [Option.map_some']
    rw [show ((100000000000000001 : ℤ) : ℚ) = (100000000000000001 : ℚ) by
      norm_num]
    rw [roundFloat_e17]
    rw [show (100000000000000000 : ℚ) = ((100000000000000000 : ℤ) : ℚ) by
      norm_num]
    rw [truncQ_intCast]
  · norm_num

/-- C9 amended: casting a value to `str` and the text back to the
value's original target type recovers the value for booleans, for
floats (every binary64 value), for timestamps and timedeltas in their
canonical text forms, and for integers exactly representable in
binary64 (`|n| < 2 ^ 53`); for larger integers the round trip can
lose precision, because the `int` caster parses through `float`. -/
theorem c9_amended_round_trip :
    (∀ n : ℤ, |n| < 2 ^ 53 →
      Option.bind (cast_to_type (.vint n) "str")
          (fun v => cast_to_type v "int") = some (.vint n))
    ∧ (∀ q : ℚ, roundFloat q = q →
      Option.bind (cast_to_type (.vfloat q) "str")
          (fun v => cast_to_type v "float") = some (.vfloat q))
    ∧ (∀ b : Bool,
      Option.bind (cast_to_type (.vbool b) "str")
          (fun v => cast_to_type v "bool") = some (.vbool b))
    ∧ (∀ t : PyTimestamp, ValidTs t →
      Option.bind (cast_to_type (.vts t) "str")
          (fun v => cast_to_type v "datetime") = some (.vts t))
    ∧ (∀ d : ℤ,
      Option.bind (cast_to_type (.vtd d) "str")
          (fun v => cast_to_type v "timedelta") = some (.vtd d)) := by
  refine ⟨?_, ?_, ?_, ?_, ?_⟩
  · intro n hn
    have h1 : cast_to_type (.vint n) "str"
        = some (.vstr (decCharsZ n)) := rfl
    rw [h1, Option.some_bind]
    unfold cast_to_type
    rw [if_neg (by simp), if_pos rfl]
    simp only [toFloat?]
    rw [decQ?_decCharsZ]
    simp only [Option.map_some']
    rw [roundFloat_intCast n hn, truncQ_intCast]
  · intro q hq
    have h1 : cast_to_type (.vfloat q) "str"
        = some (.vstr (floatChars q)) := rfl
    rw [h1, Option.some_bind]
    unfold cast_to_type
    rw [if_neg (by simp), if_neg (by decide), if_pos rfl]
    simp only [toFloat?]
    rw [decQ?_floatChars (den_dvd_of_roundFloat_fix hq)]
    simp only [Option.map_some']
    rw [hq]
  · intro b
    cases b <;> decide
  · intro t ht
    have h1 : cast_to_type (.vts t) "str"
        = some (.vstr (tsChars t)) := rfl
    rw [h1, Option.some_bind]
    unfold cast_to_type
    rw [if_neg (by simp), if_neg (by decide), if_neg (by decide),
      if_neg (by decide), if_neg (by decide), if_pos rfl]
    simp only [pdToDatetime?]
    rw [tsOfChars?_tsChars ht]
    rfl
  · intro d
    have h1 : cast_to_type (.vtd d) "str"
        = some (.vstr (tdChars d)) := rfl
    rw [h1, Option.some_bind]
    unfold cast_to_type
    rw [if_neg (by simp), if_neg (by decide), if_neg (by decide),
      if_neg (by decide), if_neg (by decide), if_neg (by decide),
      if_pos rfl]
    simp only [parse_timedelta]
    rw [tdOfChars?_tdChars]
    rfl

/-- Witness for the amended C9, at one concrete value of each type. -/
theorem c9_amended_round_trip_witness :
    |(5 : ℤ)| < 2 ^ 53
    ∧ roundFloat (1 / 2 : ℚ) = 1 / 2
    ∧ ValidTs ⟨2024, 5, 5, 13, 30, 7, 123000⟩
    ∧ Option.bind (cast_to_type (.vint 5) "str")
        (fun v => cast_to_type v "int") = some (.vint 5)
    ∧ Option.bind (cast_to_type (.vfloat (1 / 2)) "str")
        (fun v => cast_to_type v "float") = some (.vfloat (1 / 2))
    ∧ Option.bind (cast_to_type (.vbool true) "str")
        (fun v => cast_to_type v "bool") = some (.vbool true)
    ∧ Option.bind (cast_to_type (.vts ⟨2024, 5, 5, 13, 30, 7, 123000⟩) "str")
        (fun v => cast_to_type v "datetime")
        = some (.vts ⟨2024, 5, 5, 13, 30, 7, 123000⟩)
    ∧ Option.bind (cast_to_type (.vtd (-1800000000000)) "str")
        (fun v => cast_to_type v "timedelta")
        = some (.vtd (-1800000000000)) :=
  ⟨by decide, roundFloat_half, by decide,
    c9_amended_round_trip.1 5 (by decide),
    c9_amended_round_trip.2.1 (1 / 2) roundFloat_half,
    c9_amended_round_trip.2.2.1 true,
    c9_amended_round_trip.2.2.2.1 ⟨2024, 5, 5, 13, 30, 7, 123000⟩ (by decide),
    c9_amended_round_trip.2.2.2.2 (-1800000000000)⟩

/-! ## DataFrames and `apply_schema` (`src/validate.py` lines 89–154)

A dataset is named columns over a list of rows with the default
`RangeIndex`: a row's identity is its position, which is what
`read_csv` hands the pipeline.  `apply_schema` keeps a mutable set of
still-valid row indices; the model keeps that set as the ascending
list of its elements, because a CPython set of the ints `0..n-1`
iterates in ascending order (each int hashes to itself and the table
is kept larger than the largest element by the load factor), so
`list(valid_indices)` is the ascending list and `discard` preserves
it — which is what `df.loc[list(valid_indices)]` receives.
-/

structure DF where
  cols : List String
  rows : List (List Value)
deriving DecidableEq

/-- A rejected-row record as both validators build it:
`index` the row's identity, `data` the zip of the column names with
the row snapshot at rejection time, `reason` the message. -/
structure Reject where
  index : ℕ
  data : List (String × Value)
  reason : String
deriving DecidableEq

/-- Cell read `df.at[idx, col]` after the column name has been
resolved to a position. -/
def getCell (row : List Value) (j : ℕ) : Value :=
  row.getD j .null

/-- Cell write `df.at[idx, col] = v`. -/
def setCell (row : List Value) (j : ℕ) (v : Value) : List Value :=
  row.set j v

/-- Position of a column name; the reader guarantees unique column
names, so the first match is the column. -/
def colIdx (cols : List String) (col : String) : ℕ :=
  cols.findIdx (fun c => c == col)

/-- The reject reason `apply_schema` records.  The source writes
`Type casting failed for column <col>: <exception text>`; the
per-value exception text is an opaque Python message and is not
modelled. -/
def castFailReason (col : String) : String :=
  "Type casting failed for column " ++ col

/-- The mutable state of the `apply_schema` loops. -/
structure SchemaState where
  rows : List (List Value)
  valid : List ℕ
  rejects : List Reject
deriving DecidableEq

/-- One row visit of the inner loop of `apply_schema`: skip the row if
it is no longer valid; otherwise cast the cell in place, and on a cast
failure remove the row from the valid set and append a reject carrying
the row's current snapshot (earlier columns already cast, the failing
cell unchanged). -/
def schemaCellStep (cols : List String) (col : String) (dtype : String)
    (st : SchemaState) (idx : ℕ) : SchemaState :=
  if idx ∈ st.valid then
    match cast_to_type (getCell (st.rows.getD idx []) (colIdx cols col)) dtype with
    | some v =>
      ⟨st.rows.set idx (setCell (st.rows.getD idx []) (colIdx cols col) v),
        st.valid, st.rejects⟩
    | none =>
      ⟨st.rows, st.valid.erase idx,
        st.rejects
          ++ [⟨idx, cols.zip (st.rows.getD idx []), castFailReason col⟩]⟩
  else st

/-- One schema column pass of `apply_schema`: a column absent from the
frame is skipped with a warning; otherwise every row is visited in
dataset order. -/
def schemaColStep (cols : List String) (st : SchemaState)
    (cd : String × String) : SchemaState :=
  if cd.1 ∈ cols then
    (List.range st.rows.length).foldl (schemaCellStep cols cd.1 cd.2) st
  else st

/-- The casting-and-partitioning loops of `apply_schema`
(lines 110–138): columns in schema order, rows in dataset order. -/
def apply_schema_core (df : DF) (schema : List (String × String)) :
    SchemaState :=
  schema.foldl (schemaColStep df.cols) ⟨df.rows, List.range df.rows.length, []⟩

/-- One cell of the explicit dtype coercion (lines 143–150),
`astype('int64')`/`astype('float64')`/`astype('bool')` on the stored
values.  In the pipeline an `int` column of accepted rows holds
Python ints (every cast succeeded), a `float` column floats or `NaN`,
a `bool` column booleans — the other source-type cases model numpy's
conversion where it is defined (`int64` of a float truncates, of a
bool is 0/1; `bool` coerces by truthiness, so `NaN` becomes true) and
fail where numpy raises (`int64` of `NaN` or of unparseable
content). -/
def astypeCell (dtype : String) (v : Value) : Option Value :=
  if dtype = "int" then
    match v with
    | .vint n => some (.vint n)
    | .vfloat q => some (.vint (truncQ q))
    | .vbool b => some (.vint (if b then 1 else 0))
    | _ => none
  else if dtype = "float" then
    match v with
    | .vfloat q => some (.vfloat q)
    | .vint n => some (.vfloat (roundFloat n))
    | .vbool b => some (.vfloat (if b then 1 else 0))
    | .null => some .null
    | _ => none
  else if dtype = "bool" then
    some (.vbool (truthy v))
  else
    some v

/-- Effectful map over a list in the `Option` monad: the whole
traversal fails as soon as one element fails, as a raising pandas
column operation does. -/
def mapOpt (f : α → Option β) : List α → Option (List β)
  | [] => some []
  | a :: l =>
    match f a, mapOpt f l with
    | some b, some l' => some (b :: l')
    | _, _ => none

/-- Effectful left fold in the `Option` monad. -/
def foldOpt (f : β → α → Option β) : β → List α → Option β
  | b, [] => some b
  | b, a :: l =>
    match f b a with
    | some b' => foldOpt f b' l
    | none => none

theorem mapOpt_length {f : α → Option β} :
    ∀ {l : List α} {l' : List β}, mapOpt f l = some l' → l'.length = l.length := by
  intro l
  induction l with
  | nil =>
    intro l' h
    simp only [mapOpt] at h
    cases h
    rfl
  | cons a l ih =>
    intro l' h
    simp only [mapOpt] at h
    cases hfa : f a with
    | none => rw [hfa] at h; cases h
    | some b =>
      rw [hfa] at h
      cases hml : mapOpt f l with
      | none => rw [hml] at h; cases h
      | some l₀ =>
        rw [hml] at h
        cases h
        simp [ih hml]

theorem mapOpt_pure : ∀ l : List α, mapOpt (fun a => some a) l = some l := by
  intro l
  induction l with
  | nil => rfl
  | cons a l ih => simp [mapOpt, ih]

theorem mapOpt_congr {f g : α → Option β} (h : ∀ a, f a = g a) :
    ∀ l : List α, mapOpt f l = mapOpt g l := by
  intro l
  induction l with
  | nil => rfl
  | cons a l ih => simp [mapOpt, h a, ih]

theorem mapOpt_cons {f : α → Option β} (a : α) (l : List α) :
    mapOpt f (a :: l)
      = (f a).bind (fun b => (mapOpt f l).map (fun l' => b :: l')) := by
  simp only [mapOpt]
  cases f a <;> cases mapOpt f l <;> rfl

theorem mapOpt_bind {f : α → Option β} {h : β → Option γ} :
    ∀ l : List α,
      mapOpt (fun a => (f a).bind h) l = (mapOpt f l).bind (mapOpt h) := by
  intro l
  induction l with
  | nil => rfl
  | cons a l ih =>
    rw [mapOpt_cons, mapOpt_cons, ih]
    cases hfa : f a <;> cases hml : mapOpt f l <;>
      simp [mapOpt_cons]

/-- One column of the dtype coercion, applied to every accepted
row. -/
def coerceColStep (j : ℕ) (dtype : String) (rows : List (List Value)) :
    Option (List (List Value)) :=
  mapOpt (fun row => (astypeCell dtype (getCell row j)).map (setCell row j)) rows

/-- Whether a schema entry triggers an explicit dtype coercion
(lines 143–150: present in the frame and of dtype `int`, `float` or
`bool`). -/
def coerces (cols : List String) (cd : String × String) : Prop :=
  cd.1 ∈ cols ∧ (cd.2 = "int" ∨ cd.2 = "float" ∨ cd.2 = "bool")

instance (cols : List String) (cd : String × String) :
    Decidable (coerces cols cd) := by
  unfold coerces
  infer_instance

/-- The dtype-coercion loop of `apply_schema`, column-major as in the
source. -/
def coerceDtypes (cols : List String) (schema : List (String × String))
    (rows : List (List Value)) : Option (List (List Value)) :=
  foldOpt (fun rows cd =>
    if coerces cols cd then coerceColStep (colIdx cols cd.1) cd.2 rows
    else some rows) rows schema

/-- The dtype coercion of one row across the whole schema.  Each
cell's coercion depends on that cell alone, so the column-major
`coerceDtypes` equals this row-major reading (`coerceDtypes_eq_mapM`
below). -/
def rowCoerce (cols : List String) (schema : List (String × String))
    (row : List Value) : Option (List Value) :=
  foldOpt (fun row cd =>
    if coerces cols cd then
      (astypeCell cd.2 (getCell row (colIdx cols cd.1))).map
        (setCell row (colIdx cols cd.1))
    else some row) row schema

/-- `apply_schema` of `src/validate.py`: run the casting loops, build
the accepted frame from the still-valid row identities in ascending
(= original) order, coerce the stored dtypes, and return the accepted
frame with the rejects.  `none` is an exception escaping the dtype
coercion (e.g. `astype('int64')` on a column that kept a null). -/
def apply_schema (df : DF) (schema : List (String × String)) :
    Option (DF × List Reject) :=
  (coerceDtypes df.cols schema
      ((apply_schema_core df schema).valid.map
        (fun i => (apply_schema_core df schema).rows.getD i []))).map
    (fun rows2 => (⟨df.cols, rows2⟩, (apply_schema_core df schema).rejects))

theorem coerceDtypes_cons (cols : List String) (cd : String × String)
    (schema : List (String × String)) (rows : List (List Value)) :
    coerceDtypes cols (cd :: schema) rows
      = (if coerces cols cd then coerceColStep (colIdx cols cd.1) cd.2 rows
          else some rows).bind (coerceDtypes cols schema) := by
  simp only [coerceDtypes, foldOpt]
  cases hstep : (if coerces cols cd then
      coerceColStep (colIdx cols cd.1) cd.2 rows else some rows) <;> rfl

theorem rowCoerce_cons (cols : List String) (cd : String × String)
    (schema : List (String × String)) (row : List Value) :
    rowCoerce cols (cd :: schema) row
      = (if coerces cols cd then
          (astypeCell cd.2 (getCell row (colIdx cols cd.1))).map
            (setCell row (colIdx cols cd.1))
          else some row).bind (rowCoerce cols schema) := by
  simp only [rowCoerce, foldOpt]
  cases hstep : (if coerces cols cd then
      (astypeCell cd.2 (getCell row (colIdx cols cd.1))).map
        (setCell row (colIdx cols cd.1))
      else some row) <;> rfl

/-- The column-major dtype coercion of the source equals the
row-major one: each cell's coercion depends on that cell alone. -/
theorem coerceDtypes_eq_mapOpt (cols : List String) :
    ∀ (schema : List (String × String)) (rows : List (List Value)),
      coerceDtypes cols schema rows = mapOpt (rowCoerce cols schema) rows := by
  intro schema
  induction schema with
  | nil =>
    intro rows
    rw [show coerceDtypes cols [] rows = some rows from rfl,
      mapOpt_congr (f := rowCoerce cols []) (g := fun row => some row)
        (fun row => rfl) rows,
      mapOpt_pure]
  | cons cd schema ih =>
    intro rows
    rw [coerceDtypes_cons,
      mapOpt_congr (fun row => rowCoerce_cons cols cd schema row) rows,
      mapOpt_bind]
    have hstep : (if coerces cols cd then
          coerceColStep (colIdx cols cd.1) cd.2 rows else some rows)
        = mapOpt (fun row => if coerces cols cd then
            (astypeCell cd.2 (getCell row (colIdx cols cd.1))).map
              (setCell row (colIdx cols cd.1))
            else some row) rows := by
      by_cases hc : coerces cols cd
      · rw [if_pos hc]
        exact mapOpt_congr (fun row => by rw [if_pos hc]) rows
      · rw [if_neg hc,
          mapOpt_congr (g := fun row => some row)
            (fun row => by rw [if_neg hc]) rows,
          mapOpt_pure]
    rw [hstep]
    cases hm : mapOpt (fun row => if coerces cols cd then
        (astypeCell cd.2 (getCell row (colIdx cols cd.1))).map
          (setCell row (colIdx cols cd.1))
        else some row) rows with
    | none => rfl
    | some rows' =>
      simp only [Option.some_bind]
      exact ih rows'

/-- The loop invariant of `apply_schema`: the row count is fixed, the
valid set is the ascending list of the positions not yet rejected, and
together the valid rows and the rejects exhaust the input rows. -/
def SchemaInv (n : ℕ) (st : SchemaState) : Prop :=
  st.rows.length = n
  ∧ st.valid = (List.range n).filter
      (fun i => decide (i ∉ st.rejects.map Reject.index))
  ∧ st.valid.length + st.rejects.length = n

theorem schemaCellStep_inv {n : ℕ} {cols : List String} {col dtype : String}
    {st : SchemaState} {idx : ℕ} (h : SchemaInv n st) :
    SchemaInv n (schemaCellStep cols col dtype st idx) := by
  obtain ⟨hA, hB, hC⟩ := h
  unfold schemaCellStep
  by_cases hmem : idx ∈ st.valid
  · rw [if_pos hmem]
    cases hcast : cast_to_type (getCell (st.rows.getD idx [])
        (colIdx cols col)) dtype with
    | some v =>
      refine ⟨?_, hB, hC⟩
      rw [List.length_set]
      exact hA
    | none =>
      have hvalNodup : st.valid.Nodup := by
        rw [hB]
        exact (List.nodup_range n).filter _
      refine ⟨hA, ?_, ?_⟩
      · show st.valid.erase idx = _
        rw [hvalNodup.erase_eq_filter, hB, List.filter_filter]
        apply List.filter_congr
        intro x hx
        by_cases h1 : x = idx <;>
          by_cases h2 : x ∈ st.rejects.map Reject.index <;>
          simp [h1, h2]
      · show (st.valid.erase idx).length
            + (st.rejects ++ [Reject.mk idx (cols.zip (st.rows.getD idx []))
                (castFailReason col)]).length = n
        have hlen := List.length_erase_of_mem hmem
        have hpos : 0 < st.valid.length :=
          List.length_pos.mpr (List.ne_nil_of_mem hmem)
        rw [List.length_append]
        simp only [List.length_cons, List.length_nil]
        omega
  · rw [if_neg hmem]
    exact ⟨hA, hB, hC⟩

theorem schemaCellFold_inv {n : ℕ} {cols : List String} {col dtype : String} :
    ∀ (js : List ℕ) {st : SchemaState}, SchemaInv n st →
      SchemaInv n (js.foldl (schemaCellStep cols col dtype) st) := by
  intro js
  induction js with
  | nil => intro st h; exact h
  | cons j js ih =>
    intro st h
    exact ih (schemaCellStep_inv h)

theorem schemaColStep_inv {n : ℕ} {cols : List String}
    {st : SchemaState} {cd : String × String} (h : SchemaInv n st) :
    SchemaInv n (schemaColStep cols st cd) := by
  unfold schemaColStep
  by_cases hcol : cd.1 ∈ cols
  · rw [if_pos hcol]
    exact schemaCellFold_inv _ h
  · rw [if_neg hcol]
    exact h

theorem getD_set_ne {l : List Bool} {i j : ℕ} {b d : Bool} (h : i ≠ j) :
    (l.set i b).getD j d = l.getD j d := by
  rw [List.getD_eq_getElem?_getD, List.getD_eq_getElem?_getD,
    List.getElem?_set_ne h]

theorem getD_set_self {l : List Bool} {i : ℕ} {b d : Bool}
    (h : i < l.length) : (l.set i b).getD i d = b := by
  rw [List.getD_eq_getElem?_getD, List.getElem?_set_self h]
  rfl

theorem apply_schema_core_inv (df : DF) (schema : List (String × String)) :
    SchemaInv df.rows.length (apply_schema_core df schema) := by
  unfold apply_schema_core
  have hinit : SchemaInv df.rows.length
      ⟨df.rows, List.range df.rows.length, []⟩ := by
    refine ⟨rfl, ?_, by simp⟩
    show List.range df.rows.length = _
    rw [List.filter_congr (q := fun _ => true) (fun x _ => by simp),
      List.filter_true]
  generalize hst : (⟨df.rows, List.range df.rows.length, []⟩ : SchemaState) = st
  rw [hst] at hinit
  clear hst
  induction schema generalizing st with
  | nil => exact hinit
  | cons cd schema ih =>
    exact ih _ (schemaColStep_inv hinit)

/-! ## `apply_rules` (`src/rules.py`)

Rule expressions are pandas `df.eval` strings; the expression engine
is an external library, so the model abstracts it as a parameter
`evalE` returning the per-row truth values of the expression over the
whole frame (the truthiness the source's `lambda v: not v` negates),
or `none` when evaluation itself raises.  `apply_rules` below is the
source's control flow around that engine.
-/

structure RuleCfg where
  rule : Option String
  message : Option String
deriving DecidableEq

/-- `rule_config.get('rule', '')`. -/
def ruleExpr (cfg : RuleCfg) : String :=
  cfg.rule.getD ""

/-- `rule_config.get('message', f'Failed rule: ...')`. -/
def ruleMsg (cfg : RuleCfg) : String :=
  cfg.message.getD ("Failed rule: " ++ ruleExpr cfg)

structure RuleState where
  mask : List Bool
  rejects : List Reject
deriving DecidableEq

/-- One row visit of the reject-marking loop of `apply_rules`: a row
whose expression result is falsy and whose valid-mask entry is still
true is flipped to false and appended to the rejects with the rule's
message; an already-invalid row is left alone. -/
def ruleRowStep (df : DF) (result : List Bool) (msg : String)
    (st : RuleState) (i : ℕ) : RuleState :=
  if result.getD i true = false ∧ st.mask.getD i false = true then
    ⟨st.mask.set i false,
      st.rejects ++ [⟨i, df.cols.zip (df.rows.getD i []), msg⟩]⟩
  else st

/-- One rule of `apply_rules`: evaluate the expression over the whole
frame; if evaluation raises, skip the rule entirely; otherwise visit
every failing row in dataset order.  (A result misaligned with the
frame would raise inside the same `try` and so also skips the rule;
pandas `eval` on the frame always returns an aligned series, so the
length guard is vacuous in practice.) -/
def ruleStep (evalE : String → DF → Option (List Bool)) (df : DF)
    (st : RuleState) (cfg : RuleCfg) : RuleState :=
  match evalE (ruleExpr cfg) df with
  | none => st
  | some result =>
    if result.length = df.rows.length then
      (List.range df.rows.length).foldl
        (ruleRowStep df result (ruleMsg cfg)) st
    else st

/-- Boolean-mask row selection `df[valid_mask]`: the rows whose mask
entry is true, in frame order. -/
def maskFilter (mask : List Bool) (rows : List (List Value)) :
    List (List Value) :=
  ((mask.zip rows).filter (fun p => p.1)).map (fun p => p.2)

/-- `apply_rules` of `src/rules.py`: empty rule list or empty frame
returns the frame unchanged with no rejects; otherwise rules run in
list order over an all-true valid mask and the accepted frame is the
mask selection of the input rows. -/
def apply_rules (evalE : String → DF → Option (List Bool)) (df : DF)
    (rules : List RuleCfg) : DF × List Reject :=
  if rules.isEmpty ∨ df.rows.isEmpty then (df, [])
  else
    ((⟨df.cols, maskFilter (rules.foldl (ruleStep evalE df)
        ⟨List.replicate df.rows.length true, []⟩).mask df.rows⟩ : DF),
      (rules.foldl (ruleStep evalE df)
        ⟨List.replicate df.rows.length true, []⟩).rejects)

/-- The count invariant of the rules loop: mask length is the row
count and true entries plus rejects exhaust the rows. -/
def RuleInv (n : ℕ) (st : RuleState) : Prop :=
  st.mask.length = n ∧ st.mask.count true + st.rejects.length = n

theorem count_true_set_false {l : List Bool} {i : ℕ}
    (h : l.getD i false = true) :
    (l.set i false).count true + 1 = l.count true := by
  induction l generalizing i with
  | nil => simp [List.getD] at h
  | cons b l ih =>
    cases i with
    | zero =>
      simp only [List.getD_cons_zero] at h
      subst h
      simp only [List.set]
      rw [List.count_cons, List.count_cons]
      simp
    | succ i =>
      have h' : l.getD i false = true := by
        simpa [List.getD_cons_succ] using h
      simp only [List.set]
      rw [List.count_cons, List.count_cons]
      have := ih h'
      cases b <;> simp <;> omega

theorem ruleRowStep_inv {n : ℕ} {df : DF} {result : List Bool}
    {msg : String} {st : RuleState} {i : ℕ} (h : RuleInv n st) :
    RuleInv n (ruleRowStep df result msg st i) := by
  obtain ⟨hA, hB⟩ := h
  unfold ruleRowStep
  by_cases hg : result.getD i true = false ∧ st.mask.getD i false = true
  · rw [if_pos hg]
    have hi : i < st.mask.length := by
      by_contra hge
      have : st.mask.getD i false = false := by
        rw [List.getD_eq_getElem?_getD, List.getElem?_eq_none (by omega)]
        rfl
      rw [this] at hg
      exact absurd hg.2 (by simp)
    have hcount := count_true_set_false hg.2
    refine ⟨by simp [hA], ?_⟩
    show (st.mask.set i false).count true
      + (st.rejects ++ [Reject.mk i (df.cols.zip (df.rows.getD i [])) msg]).length = n
    rw [List.length_append]
    simp only [List.length_cons, List.length_nil]
    omega
  · rw [if_neg hg]
    exact ⟨hA, hB⟩

theorem ruleRowFold_inv {n : ℕ} {df : DF} {result : List Bool}
    {msg : String} :
    ∀ (js : List ℕ) {st : RuleState}, RuleInv n st →
      RuleInv n (js.foldl (ruleRowStep df result msg) st) := by
  intro js
  induction js with
  | nil => intro st h; exact h
  | cons j js ih => intro st h; exact ih (ruleRowStep_inv h)

theorem ruleStep_inv {n : ℕ} {evalE : String → DF → Option (List Bool)}
    {df : DF} {st : RuleState} {cfg : RuleCfg} (h : RuleInv n st) :
    RuleInv n (ruleStep evalE df st cfg) := by
  unfold ruleStep
  cases evalE (ruleExpr cfg) df with
  | none => exact h
  | some result =>
    show RuleInv n (if result.length = df.rows.length then
      (List.range df.rows.length).foldl
        (ruleRowStep df result (ruleMsg cfg)) st else st)
    by_cases hlen : result.length = df.rows.length
    · rw [if_pos hlen]
      exact ruleRowFold_inv _ h
    · rw [if_neg hlen]
      exact h

theorem ruleFold_inv {n : ℕ} {evalE : String → DF → Option (List Bool)}
    {df : DF} :
    ∀ (rules : List RuleCfg) {st : RuleState}, RuleInv n st →
      RuleInv n (rules.foldl (ruleStep evalE df) st) := by
  intro rules
  induction rules with
  | nil => intro st h; exact h
  | cons cfg rules ih => intro st h; exact ih (ruleStep_inv h)

theorem maskFilter_length :
    ∀ {mask : List Bool} {rows : List (List Value)},
      mask.length = rows.length →
      (maskFilter mask rows).length = mask.count true := by
  intro mask
  induction mask with
  | nil => intro rows h; rfl
  | cons b mask ih =>
    intro rows h
    cases rows with
    | nil => simp at h
    | cons row rows =>
      have h' : mask.length = rows.length := by simpa using h
      unfold maskFilter at ih ⊢
      rw [List.zip_cons_cons, List.filter_cons]
      cases b with
      | true =>
        simp [ih h', List.count_cons]
      | false =>
        simp [ih h', List.count_cons]

/-- Row conservation through `apply_rules`: accepted rows plus rejects
equal the input rows. -/
theorem apply_rules_conservation (evalE : String → DF → Option (List Bool))
    (df : DF) (rules : List RuleCfg) :
    (apply_rules evalE df rules).1.rows.length
      + (apply_rules evalE df rules).2.length = df.rows.length := by
  unfold apply_rules
  by_cases hedge : rules.isEmpty ∨ df.rows.isEmpty
  · rw [if_pos hedge]
    simp
  · rw [if_neg hedge]
    have hinit : RuleInv df.rows.length
        (⟨List.replicate df.rows.length true, []⟩ : RuleState) := by
      constructor
      · simp
      · simp [List.count_replicate]

    have hfold := @ruleFold_inv _ evalE df rules _ hinit
    obtain ⟨hA, hB⟩ := hfold
    simp only []
    rw [maskFilter_length (by rw [hA])]
    exact hB

/-! ## Claims C1 and C2 — conservation and order -/

/-- C1: `apply_schema` partitions its input exactly — accepted rows
plus rejects equal the input rows — and, transitively, running
`apply_rules` on the accepted output keeps the balance: finally
accepted rows plus the rejects of both stages equal the rows read.
No row is lost without either acceptance or a recorded reject. -/
theorem c1_no_row_lost (df : DF) (schema : List (String × String))
    (vdf : DF) (rjs1 : List Reject)
    (h : apply_schema df schema = some (vdf, rjs1))
    (evalE : String → DF → Option (List Bool)) (rules : List RuleCfg) :
    vdf.rows.length + rjs1.length = df.rows.length
    ∧ (apply_rules evalE vdf rules).1.rows.length
        + (rjs1.length + (apply_rules evalE vdf rules).2.length)
      = df.rows.length := by
  obtain ⟨hA, hB, hC⟩ := apply_schema_core_inv df schema
  unfold apply_schema at h
  cases hco : coerceDtypes df.cols schema
      ((apply_schema_core df schema).valid.map
        (fun i => (apply_schema_core df schema).rows.getD i [])) with
  | none =>
    rw [hco] at h
    cases h
  | some rows2 =>
    rw [hco] at h
    simp only [Option.map_some', Option.some.injEq] at h
    injection h with h1 h2
    subst h1
    subst h2
    rw [coerceDtypes_eq_mapOpt] at hco
    have hlen2 := mapOpt_length hco
    rw [List.length_map] at hlen2
    have hfirst : rows2.length + (apply_schema_core df schema).rejects.length
        = df.rows.length := by omega
    refine ⟨hfirst, ?_⟩
    have hrules := apply_rules_conservation evalE ⟨df.cols, rows2⟩ rules
    simp only [] at hrules
    omega

/-- Witness for C1 at a concrete frame: one row whose `timedelta`
cast fails and one that passes, then an empty rule pass. -/
theorem c1_no_row_lost_witness :
    apply_schema ⟨["d"], [[.vstr [Char.ofNat 120]], [.vint 5]]⟩
        [("d", "timedelta")]
      = some (⟨["d"], [[.vint 5]]⟩,
          [⟨0, [("d", .vstr [Char.ofNat 120])], castFailReason "d"⟩])
    ∧ ((⟨["d"], [[.vint 5]]⟩ : DF).rows.length
        + [Reject.mk 0 [("d", .vstr [Char.ofNat 120])]
            (castFailReason "d")].length
      = (⟨["d"], [[.vstr [Char.ofNat 120]], [.vint 5]]⟩ : DF).rows.length)
    ∧ ((apply_rules (fun _ _ => none) ⟨["d"], [[.vint 5]]⟩ []).1.rows.length
        + ([Reject.mk 0 [("d", .vstr [Char.ofNat 120])]
              (castFailReason "d")].length
          + (apply_rules (fun _ _ => none) ⟨["d"], [[.vint 5]]⟩ []).2.length)
      = (⟨["d"], [[.vstr [Char.ofNat 120]], [.vint 5]]⟩ : DF).rows.length) :=
  ⟨by decide,
    (c1_no_row_lost ⟨["d"], [[.vstr [Char.ofNat 120]], [.vint 5]]⟩
      [("d", "timedelta")] ⟨["d"], [[.vint 5]]⟩
      [⟨0, [("d", .vstr [Char.ofNat 120])], castFailReason "d"⟩]
      (by decide) (fun _ _ => none) []).1,
    (c1_no_row_lost ⟨["d"], [[.vstr [Char.ofNat 120]], [.vint 5]]⟩
      [("d", "timedelta")] ⟨["d"], [[.vint 5]]⟩
      [⟨0, [("d", .vstr [Char.ofNat 120])], castFailReason "d"⟩]
      (by decide) (fun _ _ => none) []).2⟩

/-- C2: the accepted frame of `apply_schema` holds the surviving rows
in their original dataset order — the accepted row positions are the
ascending (= original) sequence of the positions with no recorded
reject, and the accepted rows are exactly the rows at those
positions, each passed through the dtype coercion, in that order. -/
theorem c2_order_preserved (df : DF) (schema : List (String × String))
    (vdf : DF) (rjs : List Reject)
    (h : apply_schema df schema = some (vdf, rjs)) :
    (apply_schema_core df schema).valid
        = (List.range df.rows.length).filter
            (fun i => decide (i ∉ rjs.map Reject.index))
    ∧ mapOpt (rowCoerce df.cols schema)
        ((apply_schema_core df schema).valid.map
          (fun i => (apply_schema_core df schema).rows.getD i []))
      = some vdf.rows := by
  obtain ⟨hA, hB, hC⟩ := apply_schema_core_inv df schema
  unfold apply_schema at h
  cases hco : coerceDtypes df.cols schema
      ((apply_schema_core df schema).valid.map
        (fun i => (apply_schema_core df schema).rows.getD i [])) with
  | none =>
    rw [hco] at h
    cases h
  | some rows2 =>
    rw [hco] at h
    simp only [Option.map_some', Option.some.injEq] at h
    injection h with h1 h2
    subst h1
    subst h2
    rw [coerceDtypes_eq_mapOpt] at hco
    exact ⟨hB, hco⟩

/-- Witness for C2 at the same concrete frame shape. -/
theorem c2_order_preserved_witness :
    apply_schema ⟨["d"], [[.vint 7], [.vstr [Char.ofNat 120]], [.vint 5]]⟩
        [("d", "timedelta")]
      = some (⟨["d"], [[.vint 7], [.vint 5]]⟩,
          [⟨1, [("d", .vstr [Char.ofNat 120])], castFailReason "d"⟩])
    ∧ (apply_schema_core ⟨["d"], [[.vint 7], [.vstr [Char.ofNat 120]],
          [.vint 5]]⟩ [("d", "timedelta")]).valid
        = (List.range 3).filter
            (fun i => decide (i ∉ [Reject.mk 1
                [("d", .vstr [Char.ofNat 120])]
                (castFailReason "d")].map Reject.index)) := by
  constructor
  · decide
  · exact (c2_order_preserved
      ⟨["d"], [[.vint 7], [.vstr [Char.ofNat 120]], [.vint 5]]⟩
      [("d", "timedelta")] ⟨["d"], [[.vint 7], [.vint 5]]⟩
      [⟨1, [("d", .vstr [Char.ofNat 120])], castFailReason "d"⟩]
      (by decide)).1

/-! ## Claims C3 and C4 — first-rule attribution, malformed rules -/

/-- Whether a rule's expression evaluates successfully over the frame
and marks row `i` as failing. -/
def ruleFailsAt (evalE : String → DF → Option (List Bool)) (df : DF)
    (cfg : RuleCfg) (i : ℕ) : Bool :=
  match evalE (ruleExpr cfg) df with
  | some result =>
    decide (result.length = df.rows.length) && !(result.getD i true)
  | none => false

/-- The reject entry `apply_rules` records for row `i` under a
message. -/
def rejectAt (df : DF) (i : ℕ) (msg : String) : Reject :=
  ⟨i, df.cols.zip (df.rows.getD i []), msg⟩

theorem ruleRowStep_mask_length (df : DF) (result : List Bool)
    (msg : String) (st : RuleState) (j : ℕ) :
    (ruleRowStep df result msg st j).mask.length = st.mask.length := by
  unfold ruleRowStep
  split
  · simp
  · rfl

theorem innerFold_mask_length (df : DF) (result : List Bool) (msg : String) :
    ∀ (js : List ℕ) (st : RuleState),
      (js.foldl (ruleRowStep df result msg) st).mask.length
        = st.mask.length := by
  intro js
  induction js with
  | nil => intro st; rfl
  | cons j js ih =>
    intro st
    rw [List.foldl_cons, ih, ruleRowStep_mask_length]

theorem innerFold_keepFalse (df : DF) (result : List Bool) (msg : String)
    (i : ℕ) :
    ∀ (js : List ℕ) (st : RuleState), st.mask.getD i false = false →
      (js.foldl (ruleRowStep df result msg) st).mask.getD i false = false
      ∧ (js.foldl (ruleRowStep df result msg) st).rejects.filter
            (fun r => decide (r.index = i))
        = st.rejects.filter (fun r => decide (r.index = i)) := by
  intro js
  induction js with
  | nil => intro st h; exact ⟨h, rfl⟩
  | cons j js ih =>
    intro st h
    have hstep : (ruleRowStep df result msg st j).mask.getD i false = false
        ∧ (ruleRowStep df result msg st j).rejects.filter
              (fun r => decide (r.index = i))
          = st.rejects.filter (fun r => decide (r.index = i)) := by
      unfold ruleRowStep
      by_cases hg : result.getD j true = false ∧ st.mask.getD j false = true
      · rw [if_pos hg]
        by_cases hji : j = i
        · subst hji
          rw [h] at hg
          exact absurd hg.2 (by simp)
        · refine ⟨?_, ?_⟩
          · show (st.mask.set j false).getD i false = false
            rw [getD_set_ne hji]
            exact h
          · show (st.rejects ++ [Reject.mk j (df.cols.zip (df.rows.getD j []))
                msg]).filter (fun r => decide (r.index = i)) = _
            rw [List.filter_append]
            simp [hji]
      · rw [if_neg hg]
        exact ⟨h, rfl⟩
    obtain ⟨h1, h2⟩ := hstep
    obtain ⟨h3, h4⟩ := ih _ h1
    rw [List.foldl_cons]
    exact ⟨h3, h4.trans h2⟩

theorem innerFold_pass (df : DF) (result : List Bool) (msg : String)
    (i : ℕ) (hpass : result.getD i true = true) :
    ∀ (js : List ℕ) (st : RuleState),
      (js.foldl (ruleRowStep df result msg) st).mask.getD i false
          = st.mask.getD i false
      ∧ (js.foldl (ruleRowStep df result msg) st).rejects.filter
            (fun r => decide (r.index = i))
        = st.rejects.filter (fun r => decide (r.index = i)) := by
  intro js
  induction js with
  | nil => intro st; exact ⟨rfl, rfl⟩
  | cons j js ih =>
    intro st
    have hstep : (ruleRowStep df result msg st j).mask.getD i false
          = st.mask.getD i false
        ∧ (ruleRowStep df result msg st j).rejects.filter
              (fun r => decide (r.index = i))
          = st.rejects.filter (fun r => decide (r.index = i)) := by
      unfold ruleRowStep
      by_cases hg : result.getD j true = false ∧ st.mask.getD j false = true
      · rw [if_pos hg]
        have hji : ¬ j = i := by
          intro hji
          subst hji
          rw [hpass] at hg
          exact absurd hg.1 (by simp)
        refine ⟨?_, ?_⟩
        · show (st.mask.set j false).getD i false = _
          rw [getD_set_ne hji]
        · show (st.rejects ++ [Reject.mk j (df.cols.zip (df.rows.getD j []))
              msg]).filter (fun r => decide (r.index = i)) = _
          rw [List.filter_append]
          simp [hji]
      · rw [if_neg hg]
        exact ⟨rfl, rfl⟩
    obtain ⟨h3, h4⟩ := ih (ruleRowStep df result msg st j)
    rw [List.foldl_cons]
    exact ⟨h3.trans hstep.1, h4.trans hstep.2⟩

theorem innerFold_fire (df : DF) (result : List Bool) (msg : String)
    (i : ℕ) (hfail : result.getD i true = false) :
    ∀ (js : List ℕ) (st : RuleState), i ∈ js → i < st.mask.length →
      st.mask.getD i false = true →
      (js.foldl (ruleRowStep df result msg) st).mask.getD i false = false
      ∧ (js.foldl (ruleRowStep df result msg) st).rejects.filter
            (fun r => decide (r.index = i))
        = st.rejects.filter (fun r => decide (r.index = i))
            ++ [rejectAt df i msg] := by
  intro js
  induction js with
  | nil =>
    intro st hmem
    exact absurd hmem (List.not_mem_nil i)
  | cons j js ih =>
    intro st hmem hlt htrue
    rw [List.foldl_cons]
    by_cases hji : j = i
    · subst hji
      have hfire : ruleRowStep df result msg st j
          = ⟨st.mask.set j false,
              st.rejects ++ [Reject.mk j (df.cols.zip (df.rows.getD j []))
                msg]⟩ := by
        unfold ruleRowStep
        rw [if_pos ⟨hfail, htrue⟩]
      rw [hfire]
      have hfalse : (st.mask.set j false).getD j false = false :=
        getD_set_self hlt
      obtain ⟨h1, h2⟩ := innerFold_keepFalse df result msg j js
        ⟨st.mask.set j false,
          st.rejects ++ [Reject.mk j (df.cols.zip (df.rows.getD j [])) msg]⟩
        hfalse
      refine ⟨h1, ?_⟩
      rw [h2]
      show (st.rejects ++ [Reject.mk j (df.cols.zip (df.rows.getD j []))
          msg]).filter (fun r => decide (r.index = j)) = _
      rw [List.filter_append]
      simp [rejectAt]
    · have hmem' : i ∈ js := by
        cases List.mem_cons.mp hmem with
        | inl h => exact absurd h.symm hji
        | inr h => exact h
      have hstep_mask : (ruleRowStep df result msg st j).mask.getD i false
          = st.mask.getD i false ∧
          (ruleRowStep df result msg st j).rejects.filter
              (fun r => decide (r.index = i))
            = st.rejects.filter (fun r => decide (r.index = i)) := by
        unfold ruleRowStep
        by_cases hg : result.getD j true = false ∧ st.mask.getD j false = true
        · rw [if_pos hg]
          refine ⟨?_, ?_⟩
          · show (st.mask.set j false).getD i false = _
            rw [getD_set_ne hji]
          · show (st.rejects ++ [Reject.mk j
                (df.cols.zip (df.rows.getD j [])) msg]).filter
                (fun r => decide (r.index = i)) = _
            rw [List.filter_append]
            simp [hji]
        · rw [if_neg hg]
          exact ⟨rfl, rfl⟩
      obtain ⟨h1, h2⟩ := ih (ruleRowStep df result msg st j) hmem'
        (by rw [ruleRowStep_mask_length]; exact hlt)
        (by rw [hstep_mask.1]; exact htrue)
      exact ⟨h1, by rw [h2, hstep_mask.2]⟩

/-- The first rule, in list order, so far recorded as failing row
`i`. -/
def nextFound (evalE : String → DF → Option (List Bool)) (df : DF)
    (i : ℕ) (found : Option RuleCfg) (cfg : RuleCfg) : Option RuleCfg :=
  match found with
  | some c => some c
  | none => if ruleFailsAt evalE df cfg i then some cfg else none

/-- Row-local invariant of the rules loop for row `i`: the mask entry
records whether no rule has yet rejected the row, and the rejects
carry exactly one entry for the row, tagged with the first failing
rule's message, once one exists. -/
def RowInvC3 (df : DF) (i : ℕ) (st : RuleState)
    (found : Option RuleCfg) : Prop :=
  st.mask.length = df.rows.length
  ∧ st.mask.getD i false = found.isNone
  ∧ st.rejects.filter (fun r => decide (r.index = i))
      = (found.map (fun c => rejectAt df i (ruleMsg c))).toList

theorem ruleStep_c3 {evalE : String → DF → Option (List Bool)} {df : DF}
    {i : ℕ} {st : RuleState} {found : Option RuleCfg} {cfg : RuleCfg}
    (hi : i < df.rows.length) (h : RowInvC3 df i st found) :
    RowInvC3 df i (ruleStep evalE df st cfg)
      (nextFound evalE df i found cfg) := by
  obtain ⟨hL, hM, hF⟩ := h
  cases heval : evalE (ruleExpr cfg) df with
  | none =>
    have hskip : ruleStep evalE df st cfg = st := by
      unfold ruleStep
      rw [heval]
    have hfail : ruleFailsAt evalE df cfg i = false := by
      unfold ruleFailsAt
      rw [heval]
    rw [hskip]
    cases found with
    | some c => exact ⟨hL, hM, hF⟩
    | none =>
      simp only [nextFound, hfail, Bool.false_eq_true, if_false]
      exact ⟨hL, hM, hF⟩
  | some result =>
    have hrs : ruleStep evalE df st cfg
        = (if result.length = df.rows.length then
            (List.range df.rows.length).foldl
              (ruleRowStep df result (ruleMsg cfg)) st
          else st) := by
      unfold ruleStep
      rw [heval]
    by_cases hlen : result.length = df.rows.length
    · rw [hrs, if_pos hlen]
      have hfails_eq : ruleFailsAt evalE df cfg i = !(result.getD i true) := by
        unfold ruleFailsAt
        rw [heval]
        simp [hlen]
      by_cases hrow : result.getD i true = false
      · have hfailsT : ruleFailsAt evalE df cfg i = true := by
          rw [hfails_eq, hrow]
          rfl
        cases found with
        | some c =>
          have hMf : st.mask.getD i false = false := by simpa using hM
          obtain ⟨h1, h2⟩ := innerFold_keepFalse df result (ruleMsg cfg) i
            (List.range df.rows.length) st hMf
          refine ⟨?_, ?_, ?_⟩
          · rw [innerFold_mask_length]
            exact hL
          · simpa using h1
          · rw [h2]
            exact hF
        | none =>
          have hMt : st.mask.getD i false = true := by simpa using hM
          obtain ⟨h1, h2⟩ := innerFold_fire df result (ruleMsg cfg) i hrow
            (List.range df.rows.length) st (List.mem_range.mpr hi)
            (by rw [hL]; exact hi) hMt
          simp only [nextFound, hfailsT, if_true]
          refine ⟨?_, ?_, ?_⟩
          · rw [innerFold_mask_length]
            exact hL
          · simpa using h1
          · rw [h2, hF]
            simp
      · have hrowT : result.getD i true = true := by
          cases hb : result.getD i true
          · exact absurd hb hrow
          · rfl
        have hfailsF : ruleFailsAt evalE df cfg i = false := by
          rw [hfails_eq, hrowT]
          rfl
        obtain ⟨h1, h2⟩ := innerFold_pass df result (ruleMsg cfg) i hrowT
          (List.range df.rows.length) st
        have hconc : RowInvC3 df i ((List.range df.rows.length).foldl
            (ruleRowStep df result (ruleMsg cfg)) st) found := by
          refine ⟨?_, ?_, ?_⟩
          · rw [innerFold_mask_length]
            exact hL
          · rw [h1]
            exact hM
          · rw [h2]
            exact hF
        cases found with
        | some c => exact hconc
        | none =>
          simp only [nextFound, hfailsF, Bool.false_eq_true, if_false]
          exact hconc
    · rw [hrs, if_neg hlen]
      have hfailsF : ruleFailsAt evalE df cfg i = false := by
        unfold ruleFailsAt
        rw [heval]
        simp [hlen]
      cases found with
      | some c => exact ⟨hL, hM, hF⟩
      | none =>
        simp only [nextFound, hfailsF, Bool.false_eq_true, if_false]
        exact ⟨hL, hM, hF⟩

theorem rulesFold_c3 {evalE : String → DF → Option (List Bool)} {df : DF}
    {i : ℕ} (hi : i < df.rows.length) :
    ∀ (rules : List RuleCfg) (st : RuleState) (found : Option RuleCfg),
      RowInvC3 df i st found →
      RowInvC3 df i (rules.foldl (ruleStep evalE df) st)
        (rules.foldl (nextFound evalE df i) found) := by
  intro rules
  induction rules with
  | nil => intro st found h; exact h
  | cons cfg rules ih =>
    intro st found h
    exact ih _ _ (ruleStep_c3 hi h)

theorem foldFound_some {evalE : String → DF → Option (List Bool)} {df : DF}
    {i : ℕ} (c : RuleCfg) :
    ∀ rules : List RuleCfg,
      rules.foldl (nextFound evalE df i) (some c) = some c := by
  intro rules
  induction rules with
  | nil => rfl
  | cons cfg rules ih => exact ih

theorem foldFound_none_eq_find? {evalE : String → DF → Option (List Bool)}
    {df : DF} {i : ℕ} :
    ∀ rules : List RuleCfg,
      rules.foldl (nextFound evalE df i) none
        = rules.find? (fun cfg => ruleFailsAt evalE df cfg i) := by
  intro rules
  induction rules with
  | nil => rfl
  | cons cfg rules ih =>
    rw [List.foldl_cons]
    by_cases hfails : ruleFailsAt evalE df cfg i = true
    · have hnext : nextFound evalE df i none cfg = some cfg := by
        simp only [nextFound, hfails, if_true]
      rw [hnext, foldFound_some,
        List.find?_cons_of_pos (p := fun cfg => ruleFailsAt evalE df cfg i)
          _ hfails]
    · have hfails' : ruleFailsAt evalE df cfg i = false := by
        cases hb : ruleFailsAt evalE df cfg i
        · rfl
        · exact absurd hb hfails
      have hnext : nextFound evalE df i none cfg = none := by
        simp only [nextFound, hfails', Bool.false_eq_true, if_false]
      rw [hnext, ih,
        List.find?_cons_of_neg (p := fun cfg => ruleFailsAt evalE df cfg i)
          _ (by simp [hfails'])]

/-- C3: a row failing several rules is rejected exactly once, and the
recorded reject carries the message of the first rule in list order
whose (successful) evaluation marks the row as failing; a row already
marked invalid is never re-rejected and its reason is never
overwritten (`src/rules.py` lines 56–63). -/
theorem c3_first_failing_rule_owns_reject
    (evalE : String → DF → Option (List Bool)) (df : DF)
    (rules : List RuleCfg) (i : ℕ) (cfg₀ : RuleCfg)
    (hi : i < df.rows.length)
    (hfind : rules.find? (fun cfg => ruleFailsAt evalE df cfg i)
      = some cfg₀) :
    (apply_rules evalE df rules).2.filter (fun r => decide (r.index = i))
      = [rejectAt df i (ruleMsg cfg₀)] := by
  have hrne : rules ≠ [] := by
    intro h
    subst h
    simp [List.find?] at hfind
  have hdfne : df.rows.isEmpty = false := by
    cases hd : df.rows with
    | nil =>
      rw [hd] at hi
      simp at hi
    | cons a l => rfl
  unfold apply_rules
  rw [if_neg (by simp [hdfne, List.isEmpty_iff, hrne])]
  simp only []
  have hinit : RowInvC3 df i
      ⟨List.replicate df.rows.length true, []⟩ none := by
    refine ⟨by simp, ?_, rfl⟩
    show (List.replicate df.rows.length true).getD i false = true
    rw [List.getD_eq_getElem?_getD, List.getElem?_replicate]
    simp [hi]
  have hfold := @rulesFold_c3 evalE _ _ hi rules _ none hinit
  rw [foldFound_none_eq_find?, hfind] at hfold
  obtain ⟨_, _, hF⟩ := hfold
  rw [hF]
  rfl

/-- Witness for C3: one row, two rules that both fail it; the reject
carries the first rule's message. -/
theorem c3_first_failing_rule_owns_reject_witness :
    0 < (⟨["a"], [[Value.vint 1]]⟩ : DF).rows.length
    ∧ [RuleCfg.mk (some "a >= 2") (some "m1"),
        RuleCfg.mk (some "a >= 3") (some "m2")].find?
        (fun cfg => ruleFailsAt (fun _ _ => some [false])
          ⟨["a"], [[Value.vint 1]]⟩ cfg 0)
      = some (RuleCfg.mk (some "a >= 2") (some "m1"))
    ∧ (apply_rules (fun _ _ => some [false]) ⟨["a"], [[Value.vint 1]]⟩
          [RuleCfg.mk (some "a >= 2") (some "m1"),
            RuleCfg.mk (some "a >= 3") (some "m2")]).2.filter
          (fun r => decide (r.index = 0))
      = [rejectAt ⟨["a"], [[Value.vint 1]]⟩ 0
          (ruleMsg (RuleCfg.mk (some "a >= 2") (some "m1")))] :=
  ⟨by decide, by decide,
    c3_first_failing_rule_owns_reject (fun _ _ => some [false])
      ⟨["a"], [[Value.vint 1]]⟩
      [RuleCfg.mk (some "a >= 2") (some "m1"),
        RuleCfg.mk (some "a >= 3") (some "m2")] 0
      (RuleCfg.mk (some "a >= 2") (some "m1")) (by decide) (by decide)⟩

theorem maskFilter_replicate_true :
    ∀ rows : List (List Value),
      maskFilter (List.replicate rows.length true) rows = rows := by
  intro rows
  induction rows with
  | nil => rfl
  | cons row rows ih =>
    show maskFilter (true :: List.replicate rows.length true) (row :: rows)
      = row :: rows
    unfold maskFilter at ih ⊢
    rw [List.zip_cons_cons, List.filter_cons]
    simp [ih]

/-- C4: a rule whose expression evaluation itself raises, wherever it
sits in the rule list, rejects no row, propagates no error, and
leaves the whole run — mask state accumulated by the rules before it
included — exactly as if the rule were absent from the list
(`src/rules.py` lines 42–69). -/
theorem c4_malformed_rule_skipped (evalE : String → DF → Option (List Bool))
    (df : DF) (pre : List RuleCfg) (r : RuleCfg) (rest : List RuleCfg)
    (h : evalE (ruleExpr r) df = none) :
    apply_rules evalE df (pre ++ r :: rest)
      = apply_rules evalE df (pre ++ rest) := by
  have hstep : ∀ st, ruleStep evalE df st r = st := by
    intro st
    unfold ruleStep
    rw [h]
  have hfold : ∀ st : RuleState,
      (pre ++ r :: rest).foldl (ruleStep evalE df) st
        = (pre ++ rest).foldl (ruleStep evalE df) st := by
    intro st
    rw [List.foldl_append, List.foldl_append, List.foldl_cons, hstep]
  unfold apply_rules
  by_cases hdf : df.rows.isEmpty
  · rw [if_pos (Or.inr hdf), if_pos (Or.inr hdf)]
  · by_cases hrest : (pre ++ rest).isEmpty
    · obtain ⟨hpre0, hrest0⟩ :=
        List.append_eq_nil.mp (List.isEmpty_iff.mp hrest)
      subst hpre0
      subst hrest0
      rw [if_neg (by simp [hdf]), if_pos (Or.inl hrest)]
      simp only [List.nil_append, List.foldl_cons, List.foldl_nil, hstep]
      rw [maskFilter_replicate_true]
    · rw [if_neg (by simp [hdf]), if_neg (by simp [hdf, hrest])]
      rw [hfold]

/-- Witness for C4: a malformed rule in the middle of the list — after
a rule that has already rejected the row and before one that still
runs — changes nothing: the run equals the run without it. -/
theorem c4_malformed_rule_skipped_witness :
    (fun (e : String) (_ : DF) =>
        if e = "rpm >>" then (none : Option (List Bool))
        else some [false])
        (ruleExpr (RuleCfg.mk (some "rpm >>") (some "m")))
        ⟨["a"], [[Value.vint 2]]⟩
      = none
    ∧ apply_rules
        (fun (e : String) (_ : DF) =>
          if e = "rpm >>" then (none : Option (List Bool))
          else some [false])
        ⟨["a"], [[Value.vint 2]]⟩
        ([RuleCfg.mk (some "a >= 3") (some "m1")]
          ++ RuleCfg.mk (some "rpm >>") (some "m")
            :: [RuleCfg.mk (some "a >= 4") (some "m2")])
      = apply_rules
        (fun (e : String) (_ : DF) =>
          if e = "rpm >>" then (none : Option (List Bool))
          else some [false])
        ⟨["a"], [[Value.vint 2]]⟩
        ([RuleCfg.mk (some "a >= 3") (some "m1")]
          ++ [RuleCfg.mk (some "a >= 4") (some "m2")]) :=
  ⟨rfl,
    c4_malformed_rule_skipped
      (fun (e : String) (_ : DF) =>
        if e = "rpm >>" then (none : Option (List Bool))
        else some [false])
      ⟨["a"], [[Value.vint 2]]⟩
      [RuleCfg.mk (some "a >= 3") (some "m1")]
      (RuleCfg.mk (some "rpm >>") (some "m"))
      [RuleCfg.mk (some "a >= 4") (some "m2")]
      (by decide)⟩

/-! ## Claim C6 — `normalize_columns`, `trim_strings` and the
orchestrator's data preparation (`src/clean.py`, `src/main.py`) -/

/-- Python `str.strip()`: whitespace removed from both ends. -/
def stripChars (s : List Char) : List Char :=
  ((s.dropWhile Char.isWhitespace).reverse.dropWhile
    Char.isWhitespace).reverse

/-- Python `str.isupper()` on the ASCII fragment in play: at least one
cased character and no lowercase one. -/
def isupperPy (s : List Char) : Bool :=
  s.any (fun c => c.isUpper || c.isLower) && s.all (fun c => !c.isLower)

/-- Underscore insertion before each uppercase character at position
one or later — the regex `(?<!^)(?=[A-Z])` of `normalize_columns`
applied to the tail. -/
def camelTail : List Char → List Char
  | [] => []
  | c :: rest =>
    if c.isUpper then Char.ofNat 95 :: c :: camelTail rest
    else c :: camelTail rest

/-- Underscore insertion before each uppercase character except at
the start of the name. -/
def camelSplit : List Char → List Char
  | [] => []
  | c :: rest => c :: camelTail rest

/-- One column name through `normalize_columns` of `src/clean.py`:
strip, then lowercase an all-caps name, otherwise underscore-split
camel case and lowercase. -/
def normalize_name (col : String) : String :=
  if isupperPy (stripChars col.data) then
    String.mk ((stripChars col.data).map Char.toLower)
  else
    String.mk ((camelSplit (stripChars col.data)).map Char.toLower)

/-- `normalize_columns` of `src/clean.py`: renames the columns,
leaves the data untouched. -/
def normalize_columns (df : DF) : DF :=
  ⟨df.cols.map normalize_name, df.rows⟩

/-- `trim_strings` of `src/clean.py`: strips every string cell.  (The
source walks only the object-dtype columns, but non-object columns
hold no strings, so cellwise trimming is the same function.) -/
def trim_strings (df : DF) : DF :=
  ⟨df.cols, df.rows.map (fun row => row.map (fun v =>
    match v with
    | .vstr s => .vstr (stripChars s)
    | v => v))⟩

/-- The data-preparation steps of `run_telemetry_ingestion`
(`src/main.py` lines 72–84): normalize the frame's column names, trim
strings, and hand the frame to `apply_schema` together with the
schema from the source configuration.  The returned pair is exactly
the `(df, schema)` argument pair of the `apply_schema` call on line
83 — the schema is taken from `source_config['schema']` with no
transformation applied to its keys. -/
def ingestionPrep (df : DF) (schema : List (String × String)) :
    DF × List (String × String) :=
  (trim_strings (normalize_columns df), schema)

/-- C6 counterexample: with a source whose column is named `RPM` and
whose configured schema key is the matching `RPM`, the orchestrator
renames the column to `rpm` but passes the schema keys through
unchanged, so the schema key no longer matches the dataset's
normalized column name — the claimed schema-key normalization does
not happen (`src/main.py` lines 72–84 normalize only the frame). -/
theorem c6_schema_keys_not_normalized_counterexample :
    (ingestionPrep ⟨["RPM"], [[Value.vstr [Char.ofNat 49, Char.ofNat 48]]]⟩
        [("RPM", "int")]).1.cols = ["rpm"]
    ∧ (ingestionPrep ⟨["RPM"],
          [[Value.vstr [Char.ofNat 49, Char.ofNat 48]]]⟩
        [("RPM", "int")]).2 = [("RPM", "int")]
    ∧ ("RPM" : String) ≠ "rpm" := by
  refine ⟨by decide, rfl, by decide⟩

/-- C6 amended: before `apply_schema` runs, the orchestrator
normalizes only the dataset's column names (and trims string cells);
the schema dictionary is passed through unchanged, so its keys match
the frame only when the source configuration already lists them in
normalized form. -/
theorem c6_amended_prep_normalizes_frame_only (df : DF)
    (schema : List (String × String)) :
    (ingestionPrep df schema).2 = schema
    ∧ (ingestionPrep df schema).1.cols = df.cols.map normalize_name
    ∧ (ingestionPrep df schema).1.rows
        = df.rows.map (fun row => row.map (fun v =>
            match v with
            | .vstr s => .vstr (stripChars s)
            | v => v))
    ∧ ((ingestionPrep df schema).2.map Prod.fst
          = (ingestionPrep df schema).1.cols
        ↔ schema.map Prod.fst = df.cols.map normalize_name) :=
  ⟨rfl, rfl, rfl, Iff.rfl⟩

/-! ## Claim C5 — `get_db_connection` and `load_dataframe`
(`src/load.py`)

The store is external (psycopg/PostgreSQL); the model is a
transactional table state plus a failure oracle saying which I/O
steps raise: the connection attempt, each `executemany`, the final
`commit`.  Staged batch writes become visible only at commit;
`get_db_connection` rolls the transaction back on any exception and
closes the connection in `finally`, re-raising the error.  The SQL
text (upsert clause, placeholders) only addresses the store and
carries no control flow, so it is not modelled; on success the
committed table gains the frame's rows. -/

structure PgOracle where
  connectOk : Bool
  batchOk : ℕ → Bool
  commitOk : Bool

structure LoadStats where
  inserted : ℕ
  total : ℕ
deriving DecidableEq

/-- Observable outcome of one `load_dataframe` call: the returned
stats (`none` when the exception propagates to the caller), the
committed content of the target table, and whether a connection is
left open. -/
structure LoadOutcome where
  result : Option LoadStats
  committed : List (List Value)
  connOpen : Bool

/-- The batch split `range(0, total_rows, batch_size)` with
`df.iloc[start:end]`: consecutive chunks of at most `batch_size`
rows, order preserved.  (`batch_size = 0` would make Python's `range`
raise; the claims assume the positive default.) -/
def chunkRows (bs : ℕ) : List (List Value) → List (List (List Value))
  | [] => []
  | a :: l => (a :: l.take (bs - 1)) :: chunkRows bs (l.drop (bs - 1))
termination_by l => l.length
decreasing_by
  simp only [List.length_cons, List.length_drop]
  omega

/-- The `executemany` loop: each batch is staged in turn; the first
failing batch raises.  Returns the final `rows_processed` when every
batch succeeds. -/
def loadBatches (F : PgOracle) :
    List (List (List Value)) → ℕ → ℕ → Option ℕ
  | [], _, acc => some acc
  | b :: bs, k, acc =>
    if F.batchOk k then loadBatches F bs (k + 1) (acc + b.length)
    else none

/-- `load_dataframe` of `src/load.py` under `get_db_connection`: an
empty frame short-circuits with `{inserted: 0, total: 0}` and no
connection; otherwise connect, stage every batch, commit once, close.
Any exception rolls back (committed table unchanged), closes the
connection, and propagates (`result = none`). -/
def load_dataframe (F : PgOracle) (db0 : List (List Value)) (df : DF)
    (batch_size : ℕ) : LoadOutcome :=
  if df.rows.isEmpty then ⟨some ⟨0, 0⟩, db0, false⟩
  else if F.connectOk = false then ⟨none, db0, false⟩
  else
    (loadBatches F (chunkRows batch_size df.rows) 0 0).elim
      ⟨none, db0, false⟩
      (fun processed =>
        if F.commitOk then
          ⟨some ⟨processed, df.rows.length⟩, db0 ++ df.rows, false⟩
        else ⟨none, db0, false⟩)

theorem loadBatches_none_of_fail (F : PgOracle) :
    ∀ (bs : List (List (List Value))) (k₀ acc : ℕ),
      (∃ j, j < bs.length ∧ F.batchOk (k₀ + j) = false) →
      loadBatches F bs k₀ acc = none := by
  intro bs
  induction bs with
  | nil =>
    intro k₀ acc h
    obtain ⟨j, hj, _⟩ := h
    simp at hj
  | cons b bs ih =>
    intro k₀ acc h
    obtain ⟨j, hj, hfail⟩ := h
    unfold loadBatches
    by_cases h0 : F.batchOk k₀ = true
    · rw [if_pos h0]
      apply ih
      cases j with
      | zero =>
        rw [Nat.add_zero] at hfail
        rw [hfail] at h0
        cases h0
      | succ j =>
        refine ⟨j, by simpa using hj, ?_⟩
        rw [show k₀ + 1 + j = k₀ + (j + 1) by omega]
        exact hfail
    · rw [if_neg h0]

theorem loadBatches_some_sum (F : PgOracle) :
    ∀ (bs : List (List (List Value))) (k₀ acc p : ℕ),
      loadBatches F bs k₀ acc = some p →
      p = acc + (bs.map List.length).sum := by
  intro bs
  induction bs with
  | nil =>
    intro k₀ acc p h
    simp only [loadBatches] at h
    cases h
    simp
  | cons b bs ih =>
    intro k₀ acc p h
    simp only [loadBatches] at h
    by_cases h0 : F.batchOk k₀ = true
    · rw [if_pos h0] at h
      have := ih (k₀ + 1) (acc + b.length) p h
      simp only [List.map_cons, List.sum_cons]
      omega
    · rw [if_neg h0] at h
      cases h

theorem chunkRows_sum (bs : ℕ) (rows : List (List Value)) :
    ((chunkRows bs rows).map List.length).sum = rows.length := by
  generalize hn : rows.length = n
  revert hn
  induction n using Nat.strong_induction_on generalizing rows with
  | _ n ih =>
    intro hn
    cases rows with
    | nil =>
      rw [← hn]
      simp [chunkRows]
    | cons a l =>
      rw [chunkRows]
      simp only [List.map_cons, List.sum_cons]
      have hlt : (l.drop (bs - 1)).length < n := by
        rw [← hn]
        simp only [List.length_cons, List.length_drop]
        omega
      rw [ih _ hlt _ rfl]
      simp only [List.length_cons, List.length_take, List.length_drop]
      rw [← hn]
      simp only [List.length_cons]
      omega

/-- C5: for a non-empty frame, any exception during connection, any
batch execution, or commit leaves the target table unchanged (the
whole transaction rolls back, no partial batches are retained),
leaves no connection open, and propagates the error to the caller;
and every success path returns `inserted` equal to `total`
(`src/load.py` lines 10–39 and 83–99). -/
theorem c5_load_failure_atomic (F : PgOracle) (db0 : List (List Value))
    (df : DF) (batch_size : ℕ) (hne : df.rows ≠ []) :
    ((F.connectOk = false
        ∨ (∃ j, j < (chunkRows batch_size df.rows).length
            ∧ F.batchOk j = false)
        ∨ F.commitOk = false) →
      (load_dataframe F db0 df batch_size).result = none
      ∧ (load_dataframe F db0 df batch_size).committed = db0
      ∧ (load_dataframe F db0 df batch_size).connOpen = false)
    ∧ (∀ s, (load_dataframe F db0 df batch_size).result = some s →
        s.inserted = s.total) := by
  have hempty : df.rows.isEmpty = false := by
    cases hd : df.rows with
    | nil => exact absurd hd hne
    | cons a l => rfl
  constructor
  · intro hfail
    unfold load_dataframe
    rw [hempty]
    simp only [Bool.false_eq_true, if_false]
    cases hconn : F.connectOk with
    | false =>
      rw [if_pos rfl]
      exact ⟨rfl, rfl, rfl⟩
    | true =>
      rw [if_neg (by simp)]
      rcases hfail with hfail | hfail | hfail
      · rw [hconn] at hfail
        cases hfail
      · obtain ⟨j, hj, hjf⟩ := hfail
        rw [loadBatches_none_of_fail F _ 0 0
          ⟨j, hj, by simpa using hjf⟩]
        exact ⟨rfl, rfl, rfl⟩
      · cases hlb : loadBatches F (chunkRows batch_size df.rows) 0 0 with
        | none => exact ⟨rfl, rfl, rfl⟩
        | some processed =>
          simp only [Option.elim_some]
          rw [if_neg (by simp [hfail])]
          exact ⟨rfl, rfl, rfl⟩
  · intro s hs
    unfold load_dataframe at hs
    rw [hempty] at hs
    simp only [Bool.false_eq_true, if_false] at hs
    by_cases hconn : F.connectOk = false
    · rw [if_pos hconn] at hs
      cases hs
    · rw [if_neg hconn] at hs
      cases hlb : loadBatches F (chunkRows batch_size df.rows) 0 0 with
      | none =>
        rw [hlb] at hs
        simp only [Option.elim_none] at hs
        cases hs
      | some processed =>
        rw [hlb] at hs
        simp only [Option.elim_some] at hs
        by_cases hcom : F.commitOk = true
        · rw [if_pos hcom] at hs
          have hps : LoadStats.mk processed df.rows.length = s := by
            injection hs
          have hsum := loadBatches_some_sum F _ 0 0 processed hlb
          rw [chunkRows_sum] at hsum
          rw [← hps]
          simpa using hsum
        · rw [if_neg hcom] at hs
          cases hs

/-- Witness for C5: a concrete two-row frame whose commit fails —
the table keeps its prior content, the connection is closed, the
error propagates. -/
theorem c5_load_failure_atomic_witness :
    (⟨["a"], [[Value.vint 1], [Value.vint 2]]⟩ : DF).rows ≠ []
    ∧ (PgOracle.mk true (fun _ => true) false).commitOk = false
    ∧ (load_dataframe (PgOracle.mk true (fun _ => true) false)
          [[Value.vint 0]] ⟨["a"], [[Value.vint 1], [Value.vint 2]]⟩
          2).result = none
    ∧ (load_dataframe (PgOracle.mk true (fun _ => true) false)
          [[Value.vint 0]] ⟨["a"], [[Value.vint 1], [Value.vint 2]]⟩
          2).committed = [[Value.vint 0]]
    ∧ (load_dataframe (PgOracle.mk true (fun _ => true) false)
          [[Value.vint 0]] ⟨["a"], [[Value.vint 1], [Value.vint 2]]⟩
          2).connOpen = false :=
  ⟨by decide, rfl,
    ((c5_load_failure_atomic (PgOracle.mk true (fun _ => true) false)
        [[Value.vint 0]] ⟨["a"], [[Value.vint 1], [Value.vint 2]]⟩ 2
        (by decide)).1 (Or.inr (Or.inr rfl))).1,
    ((c5_load_failure_atomic (PgOracle.mk true (fun _ => true) false)
        [[Value.vint 0]] ⟨["a"], [[Value.vint 1], [Value.vint 2]]⟩ 2
        (by decide)).1 (Or.inr (Or.inr rfl))).2.1,
    ((c5_load_failure_atomic (PgOracle.mk true (fun _ => true) false)
        [[Value.vint 0]] ⟨["a"], [[Value.vint 1], [Value.vint 2]]⟩ 2
        (by decide)).1 (Or.inr (Or.inr rfl))).2.2⟩

end Telemetry
